import Mathlib

/-!
Verification of the logos-ide language-service core against its
natural-language specification.

The Rust sources are shallowly embedded:
* text is a `List Char` of Unicode scalar values (Rust `String` content);
  byte offsets are computed through the UTF-8 width of each scalar and
  columns through the UTF-16 width, exactly as `char::len_utf8` /
  `char::len_utf16` do;
* machine integers (`u32`, `usize`) are `Nat` (the only arithmetic
  performed on them is bounded increments and sums of widths, far from
  any wrap-around);
* operations that can panic in Rust (string slicing at a byte index that
  is not a character boundary) return `Option`, with `none` marking the
  panic.
-/

/-- UTF-8 byte width of a scalar value, as Rust `char::len_utf8`. -/
def utf8Len (c : Char) : Nat :=
  if c.toNat < 0x80 then 1
  else if c.toNat < 0x800 then 2
  else if c.toNat < 0x10000 then 3
  else 4

/-- UTF-16 code-unit width of a scalar value, as Rust `char::len_utf16`. -/
def utf16Len (c : Char) : Nat :=
  if c.toNat < 0x10000 then 1 else 2

/-- Byte length of a text, as Rust `str::len`. -/
def byteLen (l : List Char) : Nat := (l.map utf8Len).sum

/-- UTF-16 length of a text, as Rust `str::encode_utf16().count()`. -/
def utf16Sum (l : List Char) : Nat := (l.map utf16Len).sum

/-- Rust `&s[..n]` on a string: the scalar values of the first `n` bytes.
`none` models the panic raised when `n` is not a character boundary or
exceeds the length. -/
def takeBytesOpt (cs : List Char) (n : Nat) : Option (List Char) :=
  if n = 0 then some []
  else
    match cs with
    | [] => none
    | c :: cs' =>
      if utf8Len c ≤ n then (takeBytesOpt cs' (n - utf8Len c)).map (fun l => c :: l)
      else none

/-- Rust `&s[n..]` on a string. `none` models the panic raised when `n`
is not a character boundary or exceeds the length. -/
def dropBytesOpt (cs : List Char) (n : Nat) : Option (List Char) :=
  if n = 0 then some cs
  else
    match cs with
    | [] => none
    | c :: cs' =>
      if utf8Len c ≤ n then dropBytesOpt cs' (n - utf8Len c)
      else none

/-- Rust `&s[a..b]`. `none` models the slicing panics (unordered bounds,
bounds outside the string, or bounds inside a multi-byte scalar). -/
def sliceBytes (cs : List Char) (a b : Nat) : Option (List Char) :=
  if a ≤ b then
    match dropBytesOpt cs a with
    | none => none
    | some tail => takeBytesOpt tail (b - a)
  else none

/-!
Position / Range (crate logos-core, module position).

The module file itself is not in the source tree; the fields and the
constructors below are fixed by their uses in document.rs and in the
daemon handlers (Position::new, Range::from_coords, field names line /
column / start / end).  `Range.containsB` is modelled from the spec:
position.rs is missing and section 3 of the spec fixes containment to be
half-open on the end position under the lexicographic order.
-/

/-- A line/column position; `column` counts UTF-16 code units. -/
structure Position where
  line : Nat
  column : Nat
deriving DecidableEq

/-- Rust `Position::new`. -/
def Position.new (line column : Nat) : Position := ⟨line, column⟩

/-- Lexicographic order on positions (the derived Rust `Ord`). -/
def Position.leB (p q : Position) : Bool :=
  decide (p.line < q.line) || (decide (p.line = q.line) && decide (p.column ≤ q.column))

/-- Strict lexicographic order on positions. -/
def Position.ltB (p q : Position) : Bool :=
  decide (p.line < q.line) || (decide (p.line = q.line) && decide (p.column < q.column))

/-- A source range; the Rust field `end` is called `stop` here because
`end` is a Lean keyword. -/
structure Range where
  start : Position
  stop : Position
deriving DecidableEq

/-- Rust `Range::from_coords`. -/
def Range.from_coords (sl sc el ec : Nat) : Range :=
  ⟨Position.new sl sc, Position.new el ec⟩

/-- Modelled from the spec: position.rs is not under src/; containment is
half-open on the end position (spec section 3). -/
def Range.containsB (r : Range) (p : Position) : Bool :=
  r.start.leB p && p.ltB r.stop

/-!
Document (crate logos-core, document.rs).
-/

/-- A text document (document.rs).  `content` is the scalar-value
sequence of the Rust `String`; `line_offsets` are byte offsets. -/
structure Document where
  uri : String
  version : Nat
  language_id : String
  content : List Char
  line_offsets : List Nat
deriving DecidableEq

/-- Document::compute_line_offsets, inner loop: for each scalar at byte
index `i` (the accumulator), push `i + 1` when it is a newline.  A
newline is one byte wide, so `i + 1` is the byte offset just after it. -/
def computeLineOffsetsAux : List Char → Nat → List Nat
  | [], _ => []
  | c :: cs, i =>
    (if c = '\n' then [i + 1] else []) ++ computeLineOffsetsAux cs (i + utf8Len c)

/-- Document::compute_line_offsets. -/
def Document.compute_line_offsets (content : List Char) : List Nat :=
  0 :: computeLineOffsetsAux content 0

/-- Document::new. -/
def Document.new (uri language_id : String) (content : List Char) : Document :=
  { uri := uri
    version := 0
    language_id := language_id
    content := content
    line_offsets := Document.compute_line_offsets content }

/-- Document::line_count. -/
def Document.line_count (d : Document) : Nat := d.line_offsets.length

/-- The loop of Document::offset_at: walk the line's scalars, stopping as
soon as the accumulated UTF-16 width `col` reaches the requested column;
return the accumulated UTF-8 width of the scalars consumed. -/
def colToByteAux : List Char → Nat → Nat → Nat
  | [], _, _ => 0
  | c :: cs, col, target =>
    if target ≤ col then 0
    else utf8Len c + colToByteAux cs (col + utf16Len c) target

/-- Byte at index `i` is b'\n' (Document::line's check
`content.as_bytes().get(i) == Some(&b'\n')`).  The byte 0x0A occurs in
UTF-8 only as the one-byte scalar '\n', never inside a multi-byte
encoding, so the check holds exactly when `i` is a character boundary
whose character is a newline. -/
def byteAtIsNL (cs : List Char) (i : Nat) : Bool :=
  match dropBytesOpt cs i with
  | some (c :: _) => c = '\n'
  | _ => false

/-- Document::line: the line's slice with the trailing newline removed.
`none` for an out-of-range line (and for the slicing panic, impossible
on well-formed documents). -/
def Document.line (d : Document) (line_number : Nat) : Option (List Char) :=
  if h : line_number < d.line_offsets.length then
    let start := d.line_offsets.get ⟨line_number, h⟩
    let e :=
      if h2 : line_number + 1 < d.line_offsets.length then
        let next_start := d.line_offsets.get ⟨line_number + 1, h2⟩
        if 0 < next_start && byteAtIsNL d.content (next_start - 1) then next_start - 1
        else next_start
      else byteLen d.content
    sliceBytes d.content start e
  else none

/-- Document::offset_at.  `none` is the Rust `None` when the line is out
of range; the inner slicing panic cannot fire on well-formed documents
but is modelled faithfully through `sliceBytes`. -/
def Document.offset_at (d : Document) (p : Position) : Option Nat :=
  if h : p.line < d.line_offsets.length then
    let line_start := d.line_offsets.get ⟨p.line, h⟩
    let line_end :=
      if h2 : p.line + 1 < d.line_offsets.length then d.line_offsets.get ⟨p.line + 1, h2⟩
      else byteLen d.content
    match sliceBytes d.content line_start line_end with
    | some line_content => some (line_start + colToByteAux line_content 0 p.column)
    | none => none
  else none

/-- Document::position_at.  The line lookup models
`line_offsets.binary_search(&offset)` by its contract on the (strictly
sorted) offset list: `Ok(i)` / `Err(i).saturating_sub(1)` both equal the
index of the last offset `≤ offset`, i.e. the number of offsets `≤
offset` minus one.  The result is an `Option`: `none` models the panic
of `&content[line_start..offset]` when `offset` is not a character
boundary (the offset is clamped to the length but not to a boundary). -/
def Document.position_at (d : Document) (offset0 : Nat) : Option Position :=
  let offset := min offset0 (byteLen d.content)
  let line := (d.line_offsets.filter (fun o => decide (o ≤ offset))).length - 1
  let line_start := d.line_offsets.getD line 0
  match sliceBytes d.content line_start offset with
  | some line_content => some (Position.new line (utf16Sum line_content))
  | none => none

/-- Document::set_content. -/
def Document.set_content (d : Document) (content : List Char) : Document :=
  { d with
    content := content
    line_offsets := Document.compute_line_offsets content
    version := d.version + 1 }

/-- Document::apply_change.  The two slices of the old content are the
Rust `&content[..start_offset]` / `&content[end_offset..]`; both are
always character boundaries (proved below), the `none` branch models the
slicing panic. -/
def Document.apply_change (d : Document) (range : Range) (text : List Char) : Option Document :=
  let start_offset := (d.offset_at range.start).getD 0
  let end_offset := (d.offset_at range.stop).getD (byteLen d.content)
  match takeBytesOpt d.content start_offset, dropBytesOpt d.content end_offset with
  | some pre, some post =>
    let new_content := pre ++ text ++ post
    some { d with
      content := new_content
      line_offsets := Document.compute_line_offsets new_content
      version := d.version + 1 }
  | _, _ => none

/-- Well-formed document: the cache is the one computed from the
content.  Document::new, set_content and apply_change all establish
this. -/
def Document.WF (d : Document) : Prop :=
  d.line_offsets = Document.compute_line_offsets d.content

/-!
Line decomposition.  To reason about the per-line behaviour of
offset_at / position_at we split the content into its line slices:
every line as stored keeps its terminating newline, the final line has
none (and may be empty).  `compute_line_offsets` is then the list of
byte offsets of the slice starts.
-/

/-- Prepend a scalar to the first slice. -/
def consHead (c : Char) : List (List Char) → List (List Char)
  | [] => [[c]]
  | l :: ls => (c :: l) :: ls

/-- Split a text into its line slices: each slice but the last ends with
the newline that terminates it; the last slice (possibly empty) has no
newline. -/
def linesWithNL : List Char → List (List Char)
  | [] => [[]]
  | c :: cs => if c = '\n' then [c] :: linesWithNL cs else consHead c (linesWithNL cs)

/-- Byte offsets of the slice starts. -/
def offsetsOf : List (List Char) → List Nat
  | [] => []
  | l :: ls => 0 :: (offsetsOf ls).map (fun o => o + byteLen l)

/-!
Symbols and the resolver (crate logos-semantic, resolver.rs).
-/

/-- Modelled from the spec: symbol.rs of logos-core is not under src/;
section 3 of the spec fixes the closed set of symbol kinds. -/
inductive SymbolKind where
  | File | Module | Namespace | Package | Class | Method | Property | Field
  | Constructor | Enum | Interface | Function | Variable | Constant | String
  | Number | Boolean | Array | Object | Key | Null | EnumMember | Struct
  | Event | Operator | TypeParameter
deriving DecidableEq

/-- Modelled from the spec: symbol.rs of logos-core is not under src/;
section 3 lists the fields (display name, kind, full range, selection
range, optional detail, children); names are scalar-value sequences.
The Rust type is called Symbol; that name is taken by Mathlib. -/
structure LSymbol where
  name : List Char
  kind : SymbolKind
  range : Range
  selection_range : Range
  detail : Option (List Char)
  children : List LSymbol

/-- SymbolResolver::find_in_symbols (resolver.rs): return the first
symbol in order whose selection range contains the position; descend
into the children only of a symbol whose full range contains it; when
the descent fails, continue with the following siblings. -/
def findInSymbols (pos : Position) : List LSymbol → Option LSymbol
  | [] => none
  | s :: rest =>
    if s.selection_range.containsB pos then some s
    else
      if s.range.containsB pos then
        match findInSymbols pos s.children with
        | some c => some c
        | none => findInSymbols pos rest
      else findInSymbols pos rest
termination_by syms => sizeOf syms
decreasing_by
  all_goals cases s
  all_goals simp only [LSymbol.mk.sizeOf_spec, List.cons.sizeOf_spec]
  all_goals omega

/-- The resolver (resolver.rs).  The scope_tree field is used only by
find_definition, which no claim mentions, and is omitted. -/
structure SymbolResolver where
  symbols : List LSymbol

/-- SymbolResolver::find_symbol_at. -/
def SymbolResolver.find_symbol_at (r : SymbolResolver) (position : Position) : Option LSymbol :=
  findInSymbols position r.symbols

/-- Specification-side recursion: some selection-range hit is reachable
by descending only through symbols whose full range contains the
position. -/
def selReachable (pos : Position) : List LSymbol → Bool
  | [] => false
  | s :: rest =>
    s.selection_range.containsB pos
    || (s.range.containsB pos && selReachable pos s.children)
    || selReachable pos rest
termination_by syms => sizeOf syms
decreasing_by
  all_goals cases s
  all_goals simp only [LSymbol.mk.sizeOf_spec, List.cons.sizeOf_spec]
  all_goals omega

/-!
Inverted index (crate logos-index, inverted.rs) and the SymbolIndex
container around it.  Names, keys and URIs are modelled at scalar-value
granularity: the Rust code lowercases with str::to_lowercase and slices
prefixes at byte indices 2..=len; for the claims' inputs (and any text
whose scalars are single-byte and lowercase 1:1) the two coincide.
-/

/-- Rust str::to_lowercase, scalar-wise. -/
def lowerName (n : List Char) : List Char := n.map Char.toLower

/-- The prefix keys contributed by a lowercased name: name[..i] for
i in 2..=len (inverted.rs, the loop in add / remove). -/
def prefixes2 (n : List Char) : List (List Char) :=
  (List.range' 2 (n.length - 1)).map (fun i => n.take i)

/-- Boolean prefix test. -/
def isPref : List Char → List Char → Bool
  | [], _ => true
  | _ :: _, [] => false
  | a :: as, b :: bs => a = b && isPref as bs

/-- The HashMap<String, HashSet<String>> behind InvertedIndex: a total
map from keys to an optional entry; an entry is a duplicate-free list
of URIs (HashSet semantics, insertion order). -/
def InvIdx : Type := List Char → Option (List String)

def InvIdx.empty : InvIdx := fun _ => none

/-- `self.index.entry(name).or_default().insert(uri)` for one key. -/
def InvIdx.insertUri (m : InvIdx) (k : List Char) (u : String) : InvIdx :=
  let s := (m k).getD []
  Function.update m k (some (if u ∈ s then s else s ++ [u]))

/-- The body of InvertedIndex::remove's loop for one key: remove the
URI from the entry when present, deleting the entry when it becomes
empty. -/
def InvIdx.removeUri (m : InvIdx) (k : List Char) (u : String) : InvIdx :=
  match m k with
  | none => m
  | some s =>
    let s' := s.erase u
    if s' = [] then Function.update m k none
    else Function.update m k (some s')

/-- InvertedIndex::add: insert the URI under the full lowercased name
and under every prefix of length 2..=len. -/
def InvIdx.add (m : InvIdx) (name : List Char) (uri : String) : InvIdx :=
  let name_lower := lowerName name
  (prefixes2 name_lower).foldl (fun m p => m.insertUri p uri) (m.insertUri name_lower uri)

/-- InvertedIndex::remove: remove the URI from the prefixes of length
2..=len — and only from those, not from a short full-name key. -/
def InvIdx.remove (m : InvIdx) (name : List Char) (uri : String) : InvIdx :=
  let name_lower := lowerName name
  (prefixes2 name_lower).foldl (fun m p => m.removeUri p uri) m

/-- Observation: key `p` is present and its entry contains `u`. -/
def InvIdx.memB (m : InvIdx) (p : List Char) (u : String) : Bool :=
  match m p with
  | some s => decide (u ∈ s)
  | none => false

/-- All entries are duplicate-free (HashSet semantics); holds in every
reachable state. -/
def SetsNodup (m : InvIdx) : Prop := ∀ k s, m k = some s → s.Nodup

/-- An indexed symbol (spec section 3): a flattened symbol with its
owning URI; only the name feeds the inverted index. -/
structure IndexedSymbol where
  name : List Char
  kind : SymbolKind
  range : Range
  selection_range : Range
  uri : String
deriving DecidableEq

/-- Modelled from the spec: the SymbolIndex container (the crate root of
logos-index) is not under src/.  Section 4.4: a per-URI ordered list of
indexed symbols plus the inverted index; index_document replaces the
URI's entry, removing the old inverted entries and adding the new ones;
remove_document drops both the per-URI list and the URI's inverted
contributions.  Removing one symbol's contribution is
InvertedIndex::remove of inverted.rs; adding is InvertedIndex::add. -/
structure SymbolIndex where
  documents : String → List IndexedSymbol
  inverted : InvIdx

def SymbolIndex.empty : SymbolIndex := ⟨fun _ => [], InvIdx.empty⟩

def SymbolIndex.index_document (si : SymbolIndex) (uri : String)
    (symbols : List IndexedSymbol) : SymbolIndex :=
  { documents := Function.update si.documents uri symbols
    inverted := symbols.foldl (fun m sym => m.add sym.name uri)
      ((si.documents uri).foldl (fun m sym => m.remove sym.name uri) si.inverted) }

def SymbolIndex.remove_document (si : SymbolIndex) (uri : String) : SymbolIndex :=
  { documents := Function.update si.documents uri []
    inverted := (si.documents uri).foldl (fun m sym => m.remove sym.name uri) si.inverted }

/-- The operations that build a symbol-index state. -/
inductive IndexOp where
  | index (uri : String) (symbols : List IndexedSymbol)
  | removeDoc (uri : String)

def applyIndexOp (si : SymbolIndex) : IndexOp → SymbolIndex
  | .index uri symbols => si.index_document uri symbols
  | .removeDoc uri => si.remove_document uri

def runIndexOps (ops : List IndexOp) : SymbolIndex :=
  ops.foldl applyIndexOp SymbolIndex.empty

/-- The reachable-state invariant of the symbol index: entries are
duplicate-free, and a key of length at least 2 maps to a set containing
a URI exactly when that URI currently has an indexed symbol whose
lowercased name begins with the key. -/
def IndexInv (si : SymbolIndex) : Prop :=
  SetsNodup si.inverted
  ∧ ∀ p u, 2 ≤ p.length →
      (si.inverted.memB p u = true
        ↔ ∃ sym ∈ si.documents u, isPref p (lowerName sym.name) = true)

/-!
Daemon state (crate logos-daemon, state.rs).
-/

/-- A TODO item (spec section 4.5); no claim depends on the fields. -/
structure TodoItem where
  kind : List Char
  text : List Char
  line : Nat
deriving DecidableEq

/-- The daemon State (state.rs): open documents by URI, the symbol
index, the TODO index.  The TODO index type (crate logos-index, not
under src/) is modelled from the spec as a per-URI map of scanned
items; the line scanner itself is a parameter of the operations. -/
structure DaemonState where
  documents : String → Option Document
  symbol_index : SymbolIndex
  todo_index : String → Option (List TodoItem)

/-- State::new. -/
def DaemonState.initial : DaemonState :=
  ⟨fun _ => none, SymbolIndex.empty, fun _ => none⟩

/-- State::open_document: store a fresh document, index its TODOs. -/
def DaemonState.open_document (st : DaemonState) (scan : List Char → List TodoItem)
    (uri language_id : String) (content : List Char) : DaemonState :=
  { st with
    documents := Function.update st.documents uri
      (some (Document.new uri language_id content))
    todo_index := Function.update st.todo_index uri (some (scan content)) }

/-- State::update_document: set_content when the document is open;
re-index the TODOs either way. -/
def DaemonState.update_document (st : DaemonState) (scan : List Char → List TodoItem)
    (uri : String) (content : List Char) : DaemonState :=
  { st with
    documents := fun x =>
      if x = uri then (st.documents uri).map (fun d => d.set_content content)
      else st.documents x
    todo_index := Function.update st.todo_index uri (some (scan content)) }

/-- State::close_document: drop the document, the symbol-index entry
(SymbolIndex::remove_document) and the TODO entry. -/
def DaemonState.close_document (st : DaemonState) (uri : String) : DaemonState :=
  { st with
    documents := Function.update st.documents uri none
    symbol_index := st.symbol_index.remove_document uri
    todo_index := Function.update st.todo_index uri none }

/-- The state-mutating daemon operations; indexSymbols is the handler
path that (re)indexes a document's extracted symbols through
SymbolIndex::index_document. -/
inductive DaemonOp where
  | openDoc (uri language_id : String) (content : List Char)
  | changeDoc (uri : String) (content : List Char)
  | closeDoc (uri : String)
  | indexSymbols (uri : String) (symbols : List IndexedSymbol)

def applyDaemonOp (scan : List Char → List TodoItem) (st : DaemonState) :
    DaemonOp → DaemonState
  | .openDoc uri lang content => st.open_document scan uri lang content
  | .changeDoc uri content => st.update_document scan uri content
  | .closeDoc uri => st.close_document uri
  | .indexSymbols uri syms =>
    { st with symbol_index := st.symbol_index.index_document uri syms }

def runDaemonOps (scan : List Char → List TodoItem) (ops : List DaemonOp) : DaemonState :=
  ops.foldl (applyDaemonOp scan) DaemonState.initial

/-!
Safe delete: the planner (crate logos-refactor, not under src/) and the
daemon handler logos/safeDelete (handlers/refactor.rs, under src/).
-/

/-- A usage location: owning URI plus range. -/
structure Location where
  uri : String
  range : Range
deriving DecidableEq

/-- logos_refactor::RefactorError as consumed by the handler: the
structured SymbolInUse case and everything else. -/
inductive RefactorError where
  | symbolInUse (usages : List Location)
  | other (msg : String)
deriving DecidableEq

structure TextEdit where
  range : Range
  new_text : List Char
deriving DecidableEq

structure RefactorResult where
  edits : List TextEdit
  description : List Char
deriving DecidableEq

/-- Modelled from the spec: crate logos-refactor (safe_delete::delete)
is not under src/.  Section 4.8, steps (iii)-(iv): if any usage outside
the declaration's own range exists, return SymbolInUse with the
blocking locations and no edits; otherwise emit a single edit removing
the declaration's range (the trailing-newline / leading-blank trimming
of the removed range is not modelled — no claim depends on it).  Steps
(i)-(ii), locating the declaration and gathering its usages, are taken
as inputs. -/
def safeDeletePlan (declRange : Range) (usages : List Location) :
    Except RefactorError RefactorResult :=
  let blocking := usages.filter (fun loc => ! declRange.containsB loc.range.start)
  if blocking.isEmpty then
    Except.ok { edits := [{ range := declRange, new_text := [] }]
                description := ['d', 'e', 'l', 'e', 't', 'e'] }
  else Except.error (RefactorError.symbolInUse blocking)

/-- The daemon's reply for logos/safeDelete (refactor.rs): success with
edits, or `{success: false, error: message}`. -/
inductive SafeDeleteReply where
  | success (edits : List TextEdit) (description : List Char)
  | failure (error : String)
deriving DecidableEq

/-- refactor.rs: each blocking location is printed as uri:line:column
with 1-based line and column of the usage's start. -/
def formatLoc (loc : Location) : String :=
  loc.uri ++ ":" ++ toString (loc.range.start.line + 1) ++ ":"
    ++ toString (loc.range.start.column + 1)

/-- refactor.rs safe_delete, response assembly. -/
def handleSafeDelete (r : Except RefactorError RefactorResult) : SafeDeleteReply :=
  match r with
  | .ok result => .success result.edits result.description
  | .error (RefactorError.symbolInUse usages) =>
    .failure ("Symbol is still in use at: "
      ++ String.intercalate ", " (usages.map formatLoc))
  | .error (RefactorError.other msg) => .failure msg

/-!
ChangeTracker (crate logos-index, incremental.rs).
-/

/-- The two HashSet<String> fields as duplicate-free lists. -/
structure ChangeTracker where
  modified : List String
  deleted : List String
deriving DecidableEq

def ChangeTracker.new : ChangeTracker := ⟨[], []⟩

/-- HashSet::insert. -/
def hsInsert (l : List String) (u : String) : List String :=
  if u ∈ l then l else l ++ [u]

/-- HashSet::remove. -/
def hsRemove (l : List String) (u : String) : List String := l.erase u

/-- ChangeTracker::mark_modified: deleted.remove(uri) then
modified.insert(uri). -/
def ChangeTracker.mark_modified (t : ChangeTracker) (uri : String) : ChangeTracker :=
  ⟨hsInsert t.modified uri, hsRemove t.deleted uri⟩

/-- ChangeTracker::mark_deleted: modified.remove(uri) then
deleted.insert(uri). -/
def ChangeTracker.mark_deleted (t : ChangeTracker) (uri : String) : ChangeTracker :=
  ⟨hsRemove t.modified uri, hsInsert t.deleted uri⟩

/-- ChangeTracker::clear. -/
def ChangeTracker.clear (_ : ChangeTracker) : ChangeTracker := ⟨[], []⟩

inductive TrackerOp where
  | markModified (uri : String)
  | markDeleted (uri : String)
  | clear

def applyTrackerOp (t : ChangeTracker) : TrackerOp → ChangeTracker
  | .markModified uri => t.mark_modified uri
  | .markDeleted uri => t.mark_deleted uri
  | .clear => t.clear

def runTrackerOps (ops : List TrackerOp) : ChangeTracker :=
  ops.foldl applyTrackerOp ChangeTracker.new

/-- Tracker invariant: both sets duplicate-free and disjoint. -/
def TrackerInv (t : ChangeTracker) : Prop :=
  t.modified.Nodup ∧ t.deleted.Nodup
  ∧ ∀ u, ¬ (u ∈ t.modified ∧ u ∈ t.deleted)

theorem utf8Len_pos (c : Char) : 0 < utf8Len c := by
  unfold utf8Len; split_ifs <;> omega

theorem utf16Len_pos (c : Char) : 0 < utf16Len c := by
  unfold utf16Len; split_ifs <;> omega

@[simp] theorem byteLen_nil : byteLen [] = 0 := rfl

@[simp] theorem byteLen_cons (c : Char) (l : List Char) :
    byteLen (c :: l) = utf8Len c + byteLen l := rfl

@[simp] theorem byteLen_append (a b : List Char) :
    byteLen (a ++ b) = byteLen a + byteLen b := by
  induction a with
  | nil => simp
  | cons c a ih => simp [ih]; omega

@[simp] theorem utf16Sum_nil : utf16Sum [] = 0 := rfl

@[simp] theorem utf16Sum_cons (c : Char) (l : List Char) :
    utf16Sum (c :: l) = utf16Len c + utf16Sum l := rfl

@[simp] theorem utf16Sum_append (a b : List Char) :
    utf16Sum (a ++ b) = utf16Sum a + utf16Sum b := by
  induction a with
  | nil => simp
  | cons c a ih => simp [ih]; omega

theorem dropBytesOpt_byteLen (a b : List Char) :
    dropBytesOpt (a ++ b) (byteLen a) = some b := by
  induction a with
  | nil => rw [List.nil_append]; unfold dropBytesOpt; simp
  | cons c a ih =>
    have hc := utf8Len_pos c
    unfold dropBytesOpt
    simp only [byteLen_cons, List.cons_append]
    rw [if_neg (by omega)]
    rw [if_pos (by omega)]
    have : utf8Len c + byteLen a - utf8Len c = byteLen a := by omega
    rw [this, ih]

theorem takeBytesOpt_byteLen (a b : List Char) :
    takeBytesOpt (a ++ b) (byteLen a) = some a := by
  induction a with
  | nil => rw [List.nil_append]; unfold takeBytesOpt; simp
  | cons c a ih =>
    have hc := utf8Len_pos c
    unfold takeBytesOpt
    simp only [byteLen_cons, List.cons_append]
    rw [if_neg (by omega)]
    rw [if_pos (by omega)]
    have : utf8Len c + byteLen a - utf8Len c = byteLen a := by omega
    rw [this, ih]
    rfl

theorem linesWithNL_ne_nil (c : List Char) : linesWithNL c ≠ [] := by
  cases c with
  | nil => simp [linesWithNL]
  | cons x cs =>
    simp only [linesWithNL]
    split
    · simp
    · cases h : linesWithNL cs with
      | nil => simp [consHead]
      | cons l ls => simp [consHead]

theorem consHead_flatten (c : Char) (ls : List (List Char)) (h : ls ≠ []) :
    (consHead c ls).flatten = c :: ls.flatten := by
  cases ls with
  | nil => exact absurd rfl h
  | cons l ls => simp [consHead]

theorem consHead_length (c : Char) (ls : List (List Char)) (h : ls ≠ []) :
    (consHead c ls).length = ls.length := by
  cases ls with
  | nil => exact absurd rfl h
  | cons l ls => simp [consHead]

theorem linesWithNL_flatten (c : List Char) : (linesWithNL c).flatten = c := by
  induction c with
  | nil => simp [linesWithNL]
  | cons x cs ih =>
    simp only [linesWithNL]
    split
    · rename_i hx
      subst hx
      simp [ih]
    · rw [consHead_flatten x _ (linesWithNL_ne_nil cs), ih]

/-- Structure of the slices: each slice is a newline-free kernel plus a
trailing newline, except the last slice which is its own kernel. -/
theorem linesWithNL_decomp (c : List Char) :
    ∀ i, i < (linesWithNL c).length →
      ∃ strip tail, (linesWithNL c).get? i = some (strip ++ tail) ∧ '\n' ∉ strip ∧
        ((i + 1 < (linesWithNL c).length ∧ tail = ['\n']) ∨
         (i + 1 = (linesWithNL c).length ∧ tail = [])) := by
  induction c with
  | nil =>
    intro i hi
    simp only [linesWithNL, List.length_singleton] at hi
    interval_cases i
    exact ⟨[], [], by simp [linesWithNL]⟩
  | cons x cs ih =>
    intro i hi
    by_cases hx : x = '\n'
    · subst hx
      have hL : linesWithNL ('\n' :: cs) = ['\n'] :: linesWithNL cs := by
        simp [linesWithNL]
      rw [hL] at hi
      rw [hL]
      simp only [List.length_cons] at hi
      cases i with
      | zero =>
        refine ⟨[], ['\n'], by simp, by simp, Or.inl ⟨?_, rfl⟩⟩
        have hpos : 0 < (linesWithNL cs).length :=
          List.length_pos.mpr (linesWithNL_ne_nil cs)
        simp only [List.length_cons]
        omega
      | succ j =>
        obtain ⟨strip, tail, hget, hnl, hcase⟩ := ih j (by omega)
        refine ⟨strip, tail, by simpa using hget, hnl, ?_⟩
        simp only [List.length_cons]
        rcases hcase with ⟨h1, h2⟩ | ⟨h1, h2⟩
        · exact Or.inl ⟨by omega, h2⟩
        · exact Or.inr ⟨by omega, h2⟩
    · obtain ⟨l0, ls, hls⟩ := List.exists_cons_of_ne_nil (linesWithNL_ne_nil cs)
      have hlen : (linesWithNL (x :: cs)).length = (linesWithNL cs).length := by
        simp only [linesWithNL, if_neg hx, hls, consHead, List.length_cons]
      have hform : linesWithNL (x :: cs) = (x :: l0) :: ls := by
        simp only [linesWithNL, if_neg hx, hls, consHead]
      rw [hlen] at hi
      cases i with
      | zero =>
        obtain ⟨strip, tail, hget, hnl, hcase⟩ := ih 0 (by omega)
        rw [hls] at hget
        simp only [List.get?] at hget
        have hl0 : l0 = strip ++ tail := by injection hget
        refine ⟨x :: strip, tail, ?_, ?_, ?_⟩
        · rw [hform]; simp [hl0]
        · simp only [List.mem_cons, not_or]
          exact ⟨fun h => hx h.symm, hnl⟩
        · rw [hlen]; exact hcase
      | succ j =>
        obtain ⟨strip, tail, hget, hnl, hcase⟩ := ih (j + 1) hi
        rw [hls] at hget
        refine ⟨strip, tail, ?_, hnl, ?_⟩
        · rw [hform]; simpa using hget
        · rw [hlen]; exact hcase

theorem computeLineOffsetsAux_shift (cs : List Char) :
    ∀ i, computeLineOffsetsAux cs i = (computeLineOffsetsAux cs 0).map (fun o => o + i) := by
  induction cs with
  | nil => intro i; rfl
  | cons c cs ih =>
    intro i
    simp only [computeLineOffsetsAux, List.map_append]
    congr 1
    · by_cases hc : c = '\n' <;> simp [hc, Nat.add_comm]
    · rw [ih (i + utf8Len c), ih (0 + utf8Len c), List.map_map]
      congr 1
      funext o
      simp only [Function.comp_apply]
      omega

theorem compute_line_offsets_eq (c : List Char) :
    Document.compute_line_offsets c = offsetsOf (linesWithNL c) := by
  induction c with
  | nil => rfl
  | cons x cs ih =>
    by_cases hx : x = '\n'
    · subst hx
      have hL : linesWithNL ('\n' :: cs) = ['\n'] :: linesWithNL cs := by
        simp [linesWithNL]
      rw [hL]
      have htail : computeLineOffsetsAux ('\n' :: cs) 0 =
          1 :: (computeLineOffsetsAux cs 0).map (fun o => o + 1) := by
        simp only [computeLineOffsetsAux, if_pos rfl]
        rw [computeLineOffsetsAux_shift cs (0 + utf8Len '\n')]
        simp [utf8Len]
      have hb : byteLen ['\n'] = 1 := by decide
      have hofs : offsetsOf (['\n'] :: linesWithNL cs) =
          0 :: (offsetsOf (linesWithNL cs)).map (fun o => o + 1) := by
        simp [offsetsOf, hb]
      rw [hofs, ← ih]
      simp only [Document.compute_line_offsets, htail, List.map_cons]
    · obtain ⟨l0, ls, hls⟩ := List.exists_cons_of_ne_nil (linesWithNL_ne_nil cs)
      have hform : linesWithNL (x :: cs) = (x :: l0) :: ls := by
        simp only [linesWithNL, if_neg hx, hls, consHead]
      rw [hform]
      have htail : computeLineOffsetsAux (x :: cs) 0 =
          (computeLineOffsetsAux cs 0).map (fun o => o + utf8Len x) := by
        simp only [computeLineOffsetsAux, if_neg hx, List.nil_append]
        rw [computeLineOffsetsAux_shift cs (0 + utf8Len x)]
        congr 1
        funext o
        omega
      have hih : computeLineOffsetsAux cs 0 = (offsetsOf ls).map (fun o => o + byteLen l0) := by
        have := ih
        rw [hls] at this
        simp only [Document.compute_line_offsets, offsetsOf] at this
        exact (List.cons.injEq _ _ _ _).mp this |>.2
      have hfun : ((fun o => o + utf8Len x) ∘ fun o => o + byteLen l0) =
          (fun o : Nat => o + byteLen (x :: l0)) := by
        funext o
        simp only [Function.comp_apply, byteLen_cons]
        omega
      simp only [Document.compute_line_offsets, offsetsOf, htail, hih, List.map_map, hfun]

theorem offsetsOf_length (ls : List (List Char)) :
    (offsetsOf ls).length = ls.length := by
  induction ls with
  | nil => rfl
  | cons l ls ih => simp [offsetsOf, ih]

theorem offsetsOf_get? (ls : List (List Char)) :
    ∀ i, i < ls.length →
      (offsetsOf ls).get? i = some (byteLen ((ls.take i).flatten)) := by
  induction ls with
  | nil => intro i hi; simp at hi
  | cons l ls ih =>
    intro i hi
    cases i with
    | zero => simp [offsetsOf]
    | succ j =>
      simp only [List.length_cons] at hi
      have hj : j < ls.length := by omega
      have hrec := ih j hj
      have hmap : (offsetsOf (l :: ls)).get? (j + 1)
          = ((offsetsOf ls).get? j).map (fun o => o + byteLen l) := by
        simp only [offsetsOf, List.get?]
        rw [List.get?_eq_getElem?, List.getElem?_map, List.get?_eq_getElem?]
      rw [hmap, hrec]
      simp [List.take_succ_cons, byteLen_append, Nat.add_comm]

theorem getD_eq_of_get? : ∀ (l : List Nat) (i : Nat) (x : Nat),
    l.get? i = some x → l.getD i 0 = x := by
  intro l
  induction l with
  | nil => intro i x h; simp at h
  | cons a l ih =>
    intro i x h
    cases i with
    | zero => simp at h; simpa [List.getD] using h
    | succ j =>
      simp only [List.get?] at h
      simpa [List.getD] using ih j x h

theorem take_succ_of_get? (ls : List (List Char)) (i : Nat) (sl : List Char)
    (h : ls.get? i = some sl) : ls.take (i + 1) = ls.take i ++ [sl] := by
  rw [List.take_succ]
  have h2 : ls[i]? = some sl := by rw [← List.get?_eq_getElem?]; exact h
  simp [h2]

theorem drop_cons_of_get? (ls : List (List Char)) (i : Nat) (sl : List Char)
    (h : ls.get? i = some sl) : ls.drop i = sl :: ls.drop (i + 1) := by
  have hlt : i < ls.length := by
    by_contra hge
    rw [List.get?_eq_none.mpr (by omega)] at h
    exact Option.noConfusion h
  have hel : ls[i] = sl := by
    have h2 : ls[i]? = some sl := by rw [← List.get?_eq_getElem?]; exact h
    rw [List.getElem?_eq_getElem hlt] at h2
    injection h2
  rw [List.drop_eq_getElem_cons hlt, hel]

theorem byteLen_pos_of_ne_nil (l : List Char) (h : l ≠ []) : 0 < byteLen l := by
  cases l with
  | nil => exact absurd rfl h
  | cons c cs =>
    have := utf8Len_pos c
    simp only [byteLen_cons]
    omega

theorem flatten_decomp (ls : List (List Char)) (i : Nat) (sl : List Char)
    (h : ls.get? i = some sl) :
    ls.flatten = (ls.take i).flatten ++ (sl ++ (ls.drop (i + 1)).flatten) := by
  conv_lhs => rw [← List.take_append_drop i ls]
  rw [List.flatten_append, drop_cons_of_get? ls i sl h]
  simp

theorem filter_le_map_add_nil (xs : List Nat) (a off : Nat) (h : off < a) :
    (xs.map (fun o => o + a)).filter (fun o => decide (o ≤ off)) = [] := by
  induction xs with
  | nil => rfl
  | cons x xs ih =>
    simp only [List.map_cons, List.filter_cons]
    rw [if_neg (by simp only [decide_eq_true_eq]; omega)]
    exact ih

theorem filter_le_map_add_length (xs : List Nat) (a off : Nat) (h : a ≤ off) :
    ((xs.map (fun o => o + a)).filter (fun o => decide (o ≤ off))).length
      = (xs.filter (fun o => decide (o ≤ off - a))).length := by
  induction xs with
  | nil => rfl
  | cons x xs ih =>
    simp only [List.map_cons, List.filter_cons]
    have hd : decide (x + a ≤ off) = decide (x ≤ off - a) := by
      rw [decide_eq_decide]; omega
    rw [hd]
    by_cases hx : x ≤ off - a
    · rw [if_pos (by simp only [decide_eq_true_eq]; exact hx),
        if_pos (by simp only [decide_eq_true_eq]; exact hx)]
      simp [ih]
    · rw [if_neg (by simp only [decide_eq_true_eq]; exact hx),
        if_neg (by simp only [decide_eq_true_eq]; exact hx)]
      exact ih

theorem offsetsOf_filter_count : ∀ (ls : List (List Char)) (i off : Nat) (sl : List Char),
    ls.get? i = some sl →
    byteLen ((ls.take i).flatten) ≤ off →
    off ≤ byteLen ((ls.take i).flatten) + byteLen sl →
    (i + 1 < ls.length → off < byteLen ((ls.take i).flatten) + byteLen sl) →
    ((offsetsOf ls).filter (fun o => decide (o ≤ off))).length = i + 1 := by
  intro ls
  induction ls with
  | nil => intro i off sl h _ _ _; simp [List.get?] at h
  | cons l ls ih =>
    intro i off sl hget hlow hhigh hstrict
    cases i with
    | zero =>
      have hsl : l = sl := by simpa using hget
      subst hsl
      simp only [List.take_zero, List.flatten_nil, byteLen_nil, Nat.zero_add] at hhigh hstrict
      simp only [offsetsOf, List.filter_cons]
      rw [if_pos (by simp)]
      simp only [List.length_cons]
      cases ls with
      | nil => simp [offsetsOf]
      | cons l2 ls2 =>
        have hoff : off < byteLen l :=
          hstrict (by simp only [List.length_cons]; omega)
        rw [filter_le_map_add_nil _ _ _ hoff]
        rfl
    | succ j =>
      have hget' : ls.get? j = some sl := hget
      have htake : byteLen (((l :: ls).take (j + 1)).flatten)
          = byteLen l + byteLen ((ls.take j).flatten) := by
        simp [List.take_succ_cons]
      rw [htake] at hlow hhigh hstrict
      simp only [offsetsOf, List.filter_cons]
      rw [if_pos (by simp)]
      simp only [List.length_cons]
      rw [filter_le_map_add_length _ _ _ (by omega)]
      have hrec := ih j (off - byteLen l) sl hget' (by omega) (by omega)
        (fun hlt => by
          have h5 := hstrict (by simp only [List.length_cons]; omega)
          omega)
      omega

theorem colToByteAux_stop (l : List Char) (col target : Nat) (h : target ≤ col) :
    colToByteAux l col target = 0 := by
  cases l with
  | nil => rfl
  | cons c cs => simp [colToByteAux, if_pos h]

theorem colToByteAux_boundary (u : List Char) :
    ∀ (v : List Char) (col : Nat), colToByteAux (u ++ v) col (col + utf16Sum u) = byteLen u := by
  induction u with
  | nil =>
    intro v col
    simp only [List.nil_append, utf16Sum_nil, Nat.add_zero, byteLen_nil]
    exact colToByteAux_stop v col col (Nat.le_refl col)
  | cons c u ih =>
    intro v col
    simp only [List.cons_append, colToByteAux, utf16Sum_cons, List.append_eq]
    rw [if_neg (by have := utf16Len_pos c; omega)]
    have harr : col + (utf16Len c + utf16Sum u) = (col + utf16Len c) + utf16Sum u := by omega
    rw [harr, ih v (col + utf16Len c)]
    rfl

theorem colToByteAux_clampAll (l : List Char) :
    ∀ (col target : Nat), col + utf16Sum l ≤ target → colToByteAux l col target = byteLen l := by
  induction l with
  | nil => intro col target _; rfl
  | cons c cs ih =>
    intro col target h
    have hp := utf16Len_pos c
    simp only [utf16Sum_cons] at h
    simp only [colToByteAux]
    rw [if_neg (by omega)]
    rw [ih (col + utf16Len c) target (by omega)]
    rfl

theorem colToByteAux_snap (u : List Char) : ∀ (c : Char) (v : List Char) (col target : Nat),
    col + utf16Sum u < target → target ≤ col + utf16Sum u + utf16Len c →
    colToByteAux (u ++ c :: v) col target = byteLen u + utf8Len c := by
  induction u with
  | nil =>
    intro c v col target h1 h2
    simp only [utf16Sum_nil, Nat.add_zero] at h1 h2
    simp only [List.nil_append, colToByteAux]
    rw [if_neg (by omega)]
    rw [colToByteAux_stop v (col + utf16Len c) target (by omega)]
    simp
  | cons b u ih =>
    intro c v col target h1 h2
    have hp := utf16Len_pos b
    simp only [utf16Sum_cons] at h1 h2
    simp only [List.cons_append, colToByteAux, List.append_eq]
    rw [if_neg (by omega)]
    rw [ih c v (col + utf16Len b) target (by omega) (by omega)]
    simp only [byteLen_cons]
    omega

theorem sliceBytes_exact (A m R : List Char) :
    sliceBytes (A ++ (m ++ R)) (byteLen A) (byteLen A + byteLen m) = some m := by
  unfold sliceBytes
  rw [if_pos (by omega)]
  rw [dropBytesOpt_byteLen]
  show takeBytesOpt (m ++ R) (byteLen A + byteLen m - byteLen A) = some m
  have harith : byteLen A + byteLen m - byteLen A = byteLen m := by omega
  rw [harith, takeBytesOpt_byteLen]

theorem offset_at_eq (d : Document) (hwf : d.WF) (p : Position)
    (sl : List Char) (hsl : (linesWithNL d.content).get? p.line = some sl) :
    d.offset_at p = some (byteLen (((linesWithNL d.content).take p.line).flatten)
      + colToByteAux sl 0 p.column) := by
  have hlo : d.line_offsets = offsetsOf (linesWithNL d.content) := by
    rw [hwf]; exact compute_line_offsets_eq d.content
  have hi : p.line < (linesWithNL d.content).length := by
    by_contra hge
    rw [List.get?_eq_none.mpr (by omega)] at hsl
    exact Option.noConfusion hsl
  have hlen : p.line < d.line_offsets.length := by
    rw [hlo, offsetsOf_length]; exact hi
  have hstart : ∀ h, d.line_offsets.get ⟨p.line, h⟩
      = byteLen (((linesWithNL d.content).take p.line).flatten) := by
    intro h
    have h1 := offsetsOf_get? (linesWithNL d.content) p.line hi
    rw [← hlo, List.get?_eq_get h] at h1
    injection h1
  have hcontent : d.content = ((linesWithNL d.content).take p.line).flatten
      ++ (sl ++ ((linesWithNL d.content).drop (p.line + 1)).flatten) := by
    conv_lhs => rw [← linesWithNL_flatten d.content]
    exact flatten_decomp _ _ _ hsl
  have hend : (if h2 : p.line + 1 < d.line_offsets.length
        then d.line_offsets.get ⟨p.line + 1, h2⟩ else byteLen d.content)
      = byteLen (((linesWithNL d.content).take p.line).flatten) + byteLen sl := by
    by_cases h2 : p.line + 1 < d.line_offsets.length
    · rw [dif_pos h2]
      have hi2 : p.line + 1 < (linesWithNL d.content).length := by
        rw [hlo, offsetsOf_length] at h2; exact h2
      have h1 := offsetsOf_get? (linesWithNL d.content) (p.line + 1) hi2
      rw [← hlo, List.get?_eq_get h2] at h1
      have h3 : (((linesWithNL d.content).take (p.line + 1)).flatten)
          = ((linesWithNL d.content).take p.line).flatten ++ sl := by
        rw [take_succ_of_get? _ _ _ hsl, List.flatten_append]
        simp
      rw [h3, byteLen_append] at h1
      injection h1
    · rw [dif_neg h2]
      have hdrop : (linesWithNL d.content).drop (p.line + 1) = [] := by
        apply List.drop_eq_nil_of_le
        rw [hlo, offsetsOf_length] at h2
        omega
      conv_lhs => rw [hcontent]
      rw [hdrop]
      simp
  obtain ⟨A, hA⟩ : ∃ A, ((linesWithNL d.content).take p.line).flatten = A := ⟨_, rfl⟩
  obtain ⟨R, hR⟩ : ∃ R, ((linesWithNL d.content).drop (p.line + 1)).flatten = R := ⟨_, rfl⟩
  rw [hA] at hstart hend ⊢
  have hcontentAR : d.content = A ++ (sl ++ R) := by
    rw [← hA, ← hR]; exact hcontent
  have hsb : sliceBytes d.content (byteLen A) (byteLen A + byteLen sl) = some sl := by
    rw [hcontentAR]; exact sliceBytes_exact A sl R
  unfold Document.offset_at
  rw [dif_pos hlen]
  simp only [hstart hlen, hend, hsb]

theorem position_at_eq (d : Document) (hwf : d.WF) (i : Nat)
    (sl u v : List Char) (hsl : (linesWithNL d.content).get? i = some sl)
    (huv : sl = u ++ v)
    (hlast : i + 1 < (linesWithNL d.content).length → v ≠ []) :
    d.position_at (byteLen (((linesWithNL d.content).take i).flatten) + byteLen u)
      = some (Position.new i (utf16Sum u)) := by
  have hlo : d.line_offsets = offsetsOf (linesWithNL d.content) := by
    rw [hwf]; exact compute_line_offsets_eq d.content
  have hi : i < (linesWithNL d.content).length := by
    by_contra hge
    rw [List.get?_eq_none.mpr (by omega)] at hsl
    exact Option.noConfusion hsl
  have hcontent : d.content = ((linesWithNL d.content).take i).flatten
      ++ (sl ++ ((linesWithNL d.content).drop (i + 1)).flatten) := by
    conv_lhs => rw [← linesWithNL_flatten d.content]
    exact flatten_decomp _ _ _ hsl
  have hvpos : i + 1 < (linesWithNL d.content).length → 0 < byteLen v :=
    fun h => byteLen_pos_of_ne_nil v (hlast h)
  have hcount : ((offsetsOf (linesWithNL d.content)).filter
      (fun o => decide (o ≤ byteLen (((linesWithNL d.content).take i).flatten) + byteLen u))).length
      = i + 1 := by
    apply offsetsOf_filter_count (linesWithNL d.content) i _ sl hsl
    · omega
    · rw [huv, byteLen_append]; omega
    · intro hlt
      have := hvpos hlt
      rw [huv, byteLen_append]
      omega
  have hgetD : (offsetsOf (linesWithNL d.content)).getD i 0
      = byteLen (((linesWithNL d.content).take i).flatten) :=
    getD_eq_of_get? _ _ _ (offsetsOf_get? (linesWithNL d.content) i hi)
  obtain ⟨A, hA⟩ : ∃ A, ((linesWithNL d.content).take i).flatten = A := ⟨_, rfl⟩
  obtain ⟨R, hR⟩ : ∃ R, ((linesWithNL d.content).drop (i + 1)).flatten = R := ⟨_, rfl⟩
  rw [hA] at hcount hgetD ⊢
  rw [hA, hR, huv] at hcontent
  have hcontentAR : d.content = A ++ (u ++ (v ++ R)) := by
    rw [hcontent, List.append_assoc]
  have hofflen : byteLen A + byteLen u ≤ byteLen d.content := by
    rw [hcontentAR]
    simp only [byteLen_append]
    omega
  have hsb : sliceBytes d.content (byteLen A) (byteLen A + byteLen u) = some u := by
    rw [hcontentAR]; exact sliceBytes_exact A u (v ++ R)
  have hmin : min (byteLen A + byteLen u) (byteLen d.content) = byteLen A + byteLen u :=
    Nat.min_eq_left hofflen
  rw [← hlo] at hcount hgetD
  unfold Document.position_at
  simp only [hmin, hcount, Nat.add_sub_cancel, hgetD, hsb]

theorem byteAtIsNL_of_drop (cs : List Char) (n : Nat) (R : List Char)
    (h : dropBytesOpt cs n = some ('\n' :: R)) : byteAtIsNL cs n = true := by
  unfold byteAtIsNL
  rw [h]
  simp

theorem line_eq_strip (d : Document) (hwf : d.WF) (i : Nat) (strip tail : List Char)
    (hsl : (linesWithNL d.content).get? i = some (strip ++ tail))
    (hcase : (i + 1 < (linesWithNL d.content).length ∧ tail = ['\n']) ∨
             (i + 1 = (linesWithNL d.content).length ∧ tail = [])) :
    d.line i = some strip := by
  have hlo : d.line_offsets = offsetsOf (linesWithNL d.content) := by
    rw [hwf]; exact compute_line_offsets_eq d.content
  have hi : i < (linesWithNL d.content).length := by
    by_contra hge
    rw [List.get?_eq_none.mpr (by omega)] at hsl
    exact Option.noConfusion hsl
  have hlen : i < d.line_offsets.length := by
    rw [hlo, offsetsOf_length]; exact hi
  have hstart : ∀ h, d.line_offsets.get ⟨i, h⟩
      = byteLen (((linesWithNL d.content).take i).flatten) := by
    intro h
    have h1 := offsetsOf_get? (linesWithNL d.content) i hi
    rw [← hlo, List.get?_eq_get h] at h1
    injection h1
  have hcontent : d.content = ((linesWithNL d.content).take i).flatten
      ++ ((strip ++ tail) ++ ((linesWithNL d.content).drop (i + 1)).flatten) := by
    conv_lhs => rw [← linesWithNL_flatten d.content]
    exact flatten_decomp _ _ _ hsl
  obtain ⟨A, hA⟩ : ∃ A, ((linesWithNL d.content).take i).flatten = A := ⟨_, rfl⟩
  obtain ⟨R, hR⟩ : ∃ R, ((linesWithNL d.content).drop (i + 1)).flatten = R := ⟨_, rfl⟩
  rw [hA] at hstart
  rw [hA, hR] at hcontent
  have hsb : sliceBytes d.content (byteLen A) (byteLen A + byteLen strip) = some strip := by
    rw [hcontent, List.append_assoc]
    exact sliceBytes_exact A strip (tail ++ R)
  unfold Document.line
  rw [dif_pos hlen]
  rcases hcase with ⟨hlt, htail⟩ | ⟨heq, htail⟩
  · have h2 : i + 1 < d.line_offsets.length := by
      rw [hlo, offsetsOf_length]; exact hlt
    have hi2 : i + 1 < (linesWithNL d.content).length := hlt
    have hnext : ∀ h, d.line_offsets.get ⟨i + 1, h⟩ = byteLen A + byteLen strip + 1 := by
      intro h
      have h1 := offsetsOf_get? (linesWithNL d.content) (i + 1) hi2
      rw [← hlo, List.get?_eq_get h] at h1
      have h3 : (((linesWithNL d.content).take (i + 1)).flatten)
          = ((linesWithNL d.content).take i).flatten ++ (strip ++ tail) := by
        rw [take_succ_of_get? _ _ _ hsl, List.flatten_append]
        simp
      rw [h3, byteLen_append, hA, htail] at h1
      have hb : byteLen (strip ++ ['\n']) = byteLen strip + 1 := by
        rw [byteLen_append]
        have : byteLen ['\n'] = 1 := by decide
        omega
      rw [hb] at h1
      injection h1 with h1
    have hc2 : d.content = (A ++ strip) ++ ('\n' :: R) := by
      rw [hcontent, htail]
      simp
    have hnl : byteAtIsNL d.content (byteLen A + byteLen strip) = true := by
      have harith : byteLen A + byteLen strip = byteLen (A ++ strip) := by
        rw [byteLen_append]
      rw [harith, hc2]
      exact byteAtIsNL_of_drop _ _ R (dropBytesOpt_byteLen (A ++ strip) ('\n' :: R))
    have harith2 : byteLen A + byteLen strip + 1 - 1 = byteLen A + byteLen strip := by omega
    rw [dif_pos h2, hnext h2, hstart hlen]
    rw [if_pos (by
      simp only [harith2, hnl, Bool.and_true, decide_eq_true_eq]
      omega)]
    rw [harith2, hsb]
  · have h2 : ¬ (i + 1 < d.line_offsets.length) := by
      rw [hlo, offsetsOf_length]; omega
    rw [dif_neg h2, hstart hlen]
    have hblen : byteLen d.content = byteLen A + byteLen strip := by
      rw [hcontent, htail]
      have hdrop : (linesWithNL d.content).drop (i + 1) = [] :=
        List.drop_eq_nil_of_le (by omega)
      rw [hdrop] at hR
      rw [← hR]
      simp
    rw [hblen, hsb]

theorem colToByteAux_isPrefLen (l : List Char) :
    ∀ col target, ∃ k, k ≤ l.length ∧ colToByteAux l col target = byteLen (l.take k) := by
  induction l with
  | nil => intro col target; exact ⟨0, by omega, rfl⟩
  | cons c cs ih =>
    intro col target
    by_cases h : target ≤ col
    · exact ⟨0, by omega, by simp [colToByteAux, if_pos h]⟩
    · obtain ⟨k, hk, hval⟩ := ih (col + utf16Len c) target
      refine ⟨k + 1, by simp only [List.length_cons]; omega, ?_⟩
      simp only [colToByteAux, if_neg h, hval, List.take_succ_cons, byteLen_cons]

theorem take_app (a b : List Char) (n : Nat) :
    (a ++ b).take (a.length + n) = a ++ b.take n := by
  induction a with
  | nil => simp
  | cons c a ih => simp only [List.cons_append, List.length_cons]; rw [Nat.succ_add]; simp [ih]

theorem take_app_le (a b : List Char) (n : Nat) (h : n ≤ a.length) :
    (a ++ b).take n = a.take n := List.take_append_of_le_length h

/-- Any offset produced by offset_at is a character boundary of the
content: the byte length of some scalar-value prefix. -/
theorem offset_at_boundary (d : Document) (hwf : d.WF) (p : Position) (off : Nat)
    (h : d.offset_at p = some off) :
    ∃ k, k ≤ d.content.length ∧ off = byteLen (d.content.take k) := by
  by_cases hi : p.line < (linesWithNL d.content).length
  · obtain ⟨sl, hsl⟩ : ∃ sl, (linesWithNL d.content).get? p.line = some sl :=
      ⟨_, List.get?_eq_get hi⟩
    rw [offset_at_eq d hwf p sl hsl] at h
    obtain ⟨k0, hk0, hval⟩ := colToByteAux_isPrefLen sl 0 p.column
    have hcontent : d.content = ((linesWithNL d.content).take p.line).flatten
        ++ (sl ++ ((linesWithNL d.content).drop (p.line + 1)).flatten) := by
      conv_lhs => rw [← linesWithNL_flatten d.content]
      exact flatten_decomp _ _ _ hsl
    obtain ⟨A, hA⟩ : ∃ A, ((linesWithNL d.content).take p.line).flatten = A := ⟨_, rfl⟩
    obtain ⟨R, hR⟩ : ∃ R, ((linesWithNL d.content).drop (p.line + 1)).flatten = R := ⟨_, rfl⟩
    rw [hA, hR] at hcontent
    rw [hA] at h
    refine ⟨A.length + k0, ?_, ?_⟩
    · rw [hcontent]
      simp only [List.length_append]
      omega
    · have htake : d.content.take (A.length + k0) = A ++ sl.take k0 := by
        rw [hcontent, take_app]
        congr 1
        exact take_app_le sl R k0 hk0
      rw [htake, byteLen_append]
      injection h with h
      omega
  · exfalso
    have hlen : ¬ p.line < d.line_offsets.length := by
      rw [hwf, compute_line_offsets_eq, offsetsOf_length]; exact hi
    unfold Document.offset_at at h
    rw [dif_neg hlen] at h
    exact Option.noConfusion h

theorem count_compute_line_offsets (c : List Char) :
    (Document.compute_line_offsets c).length = 1 + c.count '\n' := by
  have haux : ∀ (cs : List Char) (i : Nat),
      (computeLineOffsetsAux cs i).length = cs.count '\n' := by
    intro cs
    induction cs with
    | nil => intro i; rfl
    | cons x cs ih =>
      intro i
      by_cases hx : x = '\n' <;>
        simp [computeLineOffsetsAux, hx, ih, List.count_cons]
  simp [Document.compute_line_offsets, haux]
  omega

/-- apply_change, when it succeeds, recomputes the cache from the new
content, bumps the version, and splices the text at the two resolved
offsets. -/
theorem apply_change_inv (d : Document) (r : Range) (t : List Char) (d' : Document)
    (h : d.apply_change r t = some d') :
    d'.content = (takeBytesOpt d.content ((d.offset_at r.start).getD 0)).getD []
        ++ t ++ (dropBytesOpt d.content ((d.offset_at r.stop).getD (byteLen d.content))).getD []
      ∧ d'.line_offsets = Document.compute_line_offsets d'.content
      ∧ d'.version = d.version + 1
      ∧ d'.uri = d.uri ∧ d'.language_id = d.language_id := by
  unfold Document.apply_change at h
  simp only [] at h
  cases htk : takeBytesOpt d.content ((d.offset_at r.start).getD 0) with
  | none => rw [htk] at h; exact Option.noConfusion h
  | some pre =>
    cases hdp : dropBytesOpt d.content ((d.offset_at r.stop).getD (byteLen d.content)) with
    | none => rw [htk, hdp] at h; exact Option.noConfusion h
    | some post =>
      rw [htk, hdp] at h
      injection h with h
      subst h
      simp

theorem getD_of_get?_some : ∀ (l : List Nat) (i x dflt : Nat),
    l.get? i = some x → l.getD i dflt = x := by
  intro l
  induction l with
  | nil => intro i x dflt h; simp at h
  | cons a l ih =>
    intro i x dflt h
    cases i with
    | zero => simp at h; simpa [List.getD] using h
    | succ j =>
      simp only [List.get?] at h
      simpa [List.getD] using ih j x dflt h

theorem getD_of_get?_none : ∀ (l : List Nat) (i dflt : Nat),
    l.get? i = none → l.getD i dflt = dflt := by
  intro l
  induction l with
  | nil => intro i dflt _; simp [List.getD]
  | cons a l ih =>
    intro i dflt h
    cases i with
    | zero => simp at h
    | succ j =>
      simp only [List.get?] at h
      simpa [List.getD] using ih j dflt h

/-- C4: offset_at is absent exactly for out-of-range lines; an
over-large column is clamped to the end of the line's byte range (the
start of the following line, or the end of the document for the last
line), here expressed as `line_offsets.getD (line+1) (byte length)`. -/
theorem c4_offset_at_absent_iff_clamp (d : Document) (hwf : d.WF) (p : Position) :
    (d.offset_at p = none ↔ d.line_offsets.length ≤ p.line)
    ∧ (∀ L, d.line p.line = some L → utf16Sum L < p.column →
        d.offset_at p = some (d.line_offsets.getD (p.line + 1) (byteLen d.content))) := by
  have hlo : d.line_offsets = offsetsOf (linesWithNL d.content) := by
    rw [hwf]; exact compute_line_offsets_eq d.content
  have hlonglen : d.line_offsets.length = (linesWithNL d.content).length := by
    rw [hlo, offsetsOf_length]
  constructor
  · constructor
    · intro hnone
      by_contra hlt
      have hi : p.line < (linesWithNL d.content).length := by omega
      obtain ⟨sl, hsl⟩ : ∃ sl, (linesWithNL d.content).get? p.line = some sl :=
        ⟨_, List.get?_eq_get hi⟩
      rw [offset_at_eq d hwf p sl hsl] at hnone
      exact Option.noConfusion hnone
    · intro hge
      unfold Document.offset_at
      rw [dif_neg (by omega)]
  · intro L hL hcol
    have hi : p.line < (linesWithNL d.content).length := by
      by_contra hge
      unfold Document.line at hL
      rw [dif_neg (by omega)] at hL
      exact Option.noConfusion hL
    obtain ⟨strip, tail, hget, hnlf, hcase⟩ := linesWithNL_decomp d.content p.line hi
    have hLs : L = strip := by
      have hh := line_eq_strip d hwf p.line strip tail hget hcase
      rw [hh] at hL
      exact (Option.some.inj hL).symm
    rw [offset_at_eq d hwf p (strip ++ tail) hget]
    have htail16 : utf16Sum tail ≤ 1 := by
      rcases hcase with ⟨_, ht⟩ | ⟨_, ht⟩
      · rw [ht]; decide
      · rw [ht]; decide
    have hclamp : colToByteAux (strip ++ tail) 0 p.column = byteLen (strip ++ tail) := by
      apply colToByteAux_clampAll
      rw [utf16Sum_append]
      rw [hLs] at hcol
      omega
    rw [hclamp]
    congr 1
    rcases hcase with ⟨hlt, ht⟩ | ⟨heq, ht⟩
    · have h1 := offsetsOf_get? (linesWithNL d.content) (p.line + 1) hlt
      rw [← hlo] at h1
      rw [getD_of_get?_some _ _ _ _ h1]
      rw [take_succ_of_get? _ _ _ hget, List.flatten_append]
      simp
    · have hnone : d.line_offsets.get? (p.line + 1) = none := by
        apply List.get?_eq_none.mpr
        omega
      rw [getD_of_get?_none _ _ _ hnone]
      have hcontent : d.content = ((linesWithNL d.content).take p.line).flatten
          ++ ((strip ++ tail) ++ ((linesWithNL d.content).drop (p.line + 1)).flatten) := by
        conv_lhs => rw [← linesWithNL_flatten d.content]
        exact flatten_decomp _ _ _ hget
      have hdrop : (linesWithNL d.content).drop (p.line + 1) = [] :=
        List.drop_eq_nil_of_le (by omega)
      rw [hdrop] at hcontent
      have hbl : byteLen d.content
          = byteLen (((linesWithNL d.content).take p.line).flatten)
            + byteLen (strip ++ tail) := by
        conv_lhs => rw [hcontent]
        simp
      rw [hbl]

/-- C4 witness: in "ab\nc", line 0 has UTF-16 length 2; column 5 is
clamped to byte offset 3, the end of line 0's byte range. -/
theorem c4_witness :
    (Document.new "w.py" "python" ['a', 'b', '\n', 'c']).offset_at (Position.new 0 5)
      = some 3 := by
  have h := (c4_offset_at_absent_iff_clamp (Document.new "w.py" "python" ['a', 'b', '\n', 'c'])
    rfl (Position.new 0 5)).2 ['a', 'b'] (by decide) (by decide)
  exact h.trans (by decide)

/-- C8: position_at panics (modelled as `none`) on a byte offset inside
a multi-byte scalar: with content "é" (two UTF-8 bytes), offset 1 is
clamped to 1 < 2 but then `&content[0..1]` slices mid-character. -/
theorem c8_position_at_panics :
    (Document.new "b.txt" "plaintext" [Char.ofNat 0xE9]).position_at 1 = none := by
  decide

/-- C8 complement: the clamp itself works — an offset past the end is
clamped to the document length and yields a position. -/
theorem c8_position_at_clamps :
    (Document.new "b.txt" "plaintext" [Char.ofNat 0xE9]).position_at 99
      = some (Position.new 0 1) := by
  decide

/-- C1 counterexample: in "a𐐷b" the column 2 falls between the two
UTF-16 code units of U+10437.  The claim says such a position snaps to
the nearest preceding boundary (byte offset 1, column 1); the code
consumes the whole scalar and lands on the following boundary (byte
offset 5, column 3). -/
theorem c1_counterexample :
    (Document.new "a.txt" "plaintext" ['a', Char.ofNat 0x10437, 'b']).offset_at
        (Position.new 0 2) = some 5
    ∧ (Document.new "a.txt" "plaintext" ['a', Char.ofNat 0x10437, 'b']).position_at 5
        = some (Position.new 0 3)
    ∧ decide ((Document.new "a.txt" "plaintext" ['a', Char.ofNat 0x10437, 'b']).offset_at
        (Position.new 0 2) = some 1) = false := by
  refine ⟨by decide, by decide, by decide⟩

/-- C1 (amended): for a valid position whose column is on a UTF-16
code-unit boundary of its line, position_at ∘ offset_at is the identity;
a column strictly inside a scalar's code units is snapped to the
following boundary (the scalar is consumed whole), not the preceding
one. -/
theorem c1_amended_roundtrip (d : Document) (hwf : d.WF) (p : Position) (L : List Char)
    (hline : d.line p.line = some L) :
    (∀ u v, L = u ++ v → p.column = utf16Sum u →
      ∃ off, d.offset_at p = some off ∧ d.position_at off = some p)
    ∧ (∀ u c v, L = u ++ c :: v → utf16Sum u < p.column →
        p.column ≤ utf16Sum u + utf16Len c →
      ∃ off, d.offset_at p = some off
        ∧ d.position_at off = some (Position.new p.line (utf16Sum u + utf16Len c))) := by
  have hlonglen : d.line_offsets.length = (linesWithNL d.content).length := by
    rw [hwf, compute_line_offsets_eq, offsetsOf_length]
  have hi : p.line < (linesWithNL d.content).length := by
    by_contra hge
    unfold Document.line at hline
    rw [dif_neg (by omega)] at hline
    exact Option.noConfusion hline
  obtain ⟨strip, tail, hget, hnlf, hcase⟩ := linesWithNL_decomp d.content p.line hi
  have hLs : L = strip := by
    have hh := line_eq_strip d hwf p.line strip tail hget hcase
    rw [hh] at hline
    exact (Option.some.inj hline).symm
  subst hLs
  have htailne : p.line + 1 < (linesWithNL d.content).length → tail ≠ [] := by
    intro hlt
    rcases hcase with ⟨_, ht⟩ | ⟨hx, _⟩
    · rw [ht]; simp
    · omega
  constructor
  · intro u v huv hcol
    refine ⟨byteLen (((linesWithNL d.content).take p.line).flatten) + byteLen u, ?_, ?_⟩
    · rw [offset_at_eq d hwf p (L ++ tail) hget]
      congr 2
      rw [huv, hcol, List.append_assoc]
      have := colToByteAux_boundary u (v ++ tail) 0
      rw [Nat.zero_add] at this
      exact this
    · have hpos : d.position_at (byteLen (((linesWithNL d.content).take p.line).flatten)
          + byteLen u) = some (Position.new p.line (utf16Sum u)) := by
        apply position_at_eq d hwf p.line (L ++ tail) u (v ++ tail) hget
        · rw [huv, List.append_assoc]
        · intro hlt
          have := htailne hlt
          intro hc
          rcases List.append_eq_nil.mp hc with ⟨_, h2⟩
          exact this h2
      rw [hpos, ← hcol]
      rfl
  · intro u c v huv h1 h2
    refine ⟨byteLen (((linesWithNL d.content).take p.line).flatten)
      + (byteLen u + utf8Len c), ?_, ?_⟩
    · rw [offset_at_eq d hwf p (L ++ tail) hget]
      congr 2
      rw [huv, List.append_assoc]
      have := colToByteAux_snap u c (v ++ tail) 0 p.column (by omega) (by omega)
      simpa using this
    · have hb : byteLen u + utf8Len c = byteLen (u ++ [c]) := by
        rw [byteLen_append]
        simp [byteLen_cons]
      have h16 : utf16Sum u + utf16Len c = utf16Sum (u ++ [c]) := by
        rw [utf16Sum_append]
        simp [utf16Sum_cons]
      rw [hb, h16]
      apply position_at_eq d hwf p.line (L ++ tail) (u ++ [c]) (v ++ tail) hget
      · rw [huv]
        simp
      · intro hlt
        have := htailne hlt
        intro hc
        rcases List.append_eq_nil.mp hc with ⟨_, h2⟩
        exact this h2

/-- C1 witness: in "ab\ncd", position (0,1) lies on a boundary and
round-trips through offset_at / position_at. -/
theorem c1_amended_witness :
    ∃ off, (Document.new "w.py" "python" ['a', 'b', '\n', 'c']).offset_at
        (Position.new 0 1) = some off
      ∧ (Document.new "w.py" "python" ['a', 'b', '\n', 'c']).position_at off
        = some (Position.new 0 1) :=
  (c1_amended_roundtrip (Document.new "w.py" "python" ['a', 'b', '\n', 'c']) rfl
    (Position.new 0 1) ['a', 'b'] (by decide)).1 ['a'] ['b'] rfl (by decide)

/-- C3: apply_change splices the replacement between the two resolved
offsets (0 when the start does not resolve, the document's byte length
when the end does not); both offsets are character boundaries, hence the
result is the char-level take/drop splice and no slicing panic occurs. -/
theorem c3_apply_change_spec (d : Document) (hwf : d.WF) (r : Range) (t : List Char)
    (_hr : r.start.leB r.stop = true) :
    ∃ d' k m, d.apply_change r t = some d'
      ∧ k ≤ d.content.length ∧ m ≤ d.content.length
      ∧ byteLen (d.content.take k) = (d.offset_at r.start).getD 0
      ∧ byteLen (d.content.take m) = (d.offset_at r.stop).getD (byteLen d.content)
      ∧ d'.content = d.content.take k ++ t ++ d.content.drop m := by
  obtain ⟨k, hkle, hk⟩ : ∃ k, k ≤ d.content.length
      ∧ byteLen (d.content.take k) = (d.offset_at r.start).getD 0 := by
    cases hs : d.offset_at r.start with
    | none => exact ⟨0, by omega, by simp⟩
    | some off =>
      obtain ⟨k, hkle, hoff⟩ := offset_at_boundary d hwf r.start off hs
      exact ⟨k, hkle, by simp [hoff]⟩
  obtain ⟨m, hmle, hm⟩ : ∃ m, m ≤ d.content.length
      ∧ byteLen (d.content.take m) = (d.offset_at r.stop).getD (byteLen d.content) := by
    cases hs : d.offset_at r.stop with
    | none =>
      refine ⟨d.content.length, by omega, ?_⟩
      simp [List.take_length]
    | some off =>
      obtain ⟨m, hmle, hoff⟩ := offset_at_boundary d hwf r.stop off hs
      exact ⟨m, hmle, by simp [hoff]⟩
  have htk : takeBytesOpt d.content (byteLen (d.content.take k)) = some (d.content.take k) := by
    obtain ⟨a, ha⟩ : ∃ a, d.content.take k = a := ⟨_, rfl⟩
    obtain ⟨b, hb⟩ : ∃ b, d.content.drop k = b := ⟨_, rfl⟩
    have hab : d.content = a ++ b := by rw [← ha, ← hb, List.take_append_drop]
    rw [ha, hab]
    exact takeBytesOpt_byteLen a b
  have hdp : dropBytesOpt d.content (byteLen (d.content.take m)) = some (d.content.drop m) := by
    obtain ⟨a, ha⟩ : ∃ a, d.content.take m = a := ⟨_, rfl⟩
    obtain ⟨b, hb⟩ : ∃ b, d.content.drop m = b := ⟨_, rfl⟩
    have hab : d.content = a ++ b := by rw [← ha, ← hb, List.take_append_drop]
    rw [ha, hb, hab]
    exact dropBytesOpt_byteLen a b
  have happ : d.apply_change r t = some { d with
      content := d.content.take k ++ t ++ d.content.drop m
      line_offsets := Document.compute_line_offsets (d.content.take k ++ t ++ d.content.drop m)
      version := d.version + 1 } := by
    unfold Document.apply_change
    simp only []
    rw [← hk, ← hm, htk, hdp]
  exact ⟨_, k, m, happ, hkle, hmle, hk, hm, rfl⟩

/-- C3 witness: replacing the range (0,0)-(0,1) of "ab" by "c". -/
theorem c3_witness :
    ∃ d' k m, (Document.new "u" "l" ['a', 'b']).apply_change (Range.from_coords 0 0 0 1) ['c']
        = some d'
      ∧ k ≤ (Document.new "u" "l" ['a', 'b']).content.length
      ∧ m ≤ (Document.new "u" "l" ['a', 'b']).content.length
      ∧ byteLen ((Document.new "u" "l" ['a', 'b']).content.take k)
          = ((Document.new "u" "l" ['a', 'b']).offset_at
              (Range.from_coords 0 0 0 1).start).getD 0
      ∧ byteLen ((Document.new "u" "l" ['a', 'b']).content.take m)
          = ((Document.new "u" "l" ['a', 'b']).offset_at
              (Range.from_coords 0 0 0 1).stop).getD
              (byteLen (Document.new "u" "l" ['a', 'b']).content)
      ∧ d'.content = (Document.new "u" "l" ['a', 'b']).content.take k ++ ['c']
          ++ (Document.new "u" "l" ['a', 'b']).content.drop m :=
  c3_apply_change_spec (Document.new "u" "l" ['a', 'b']) rfl (Range.from_coords 0 0 0 1) ['c']
    (by decide)

/-- C6: after either mutation (set_content, or a successful
apply_change) the cache length is one more than the number of newlines,
its first entry is 0, and the version is exactly one greater. -/
theorem c6_mutation_invariants (d : Document) (c' : List Char) (r : Range) (t : List Char)
    (d' : Document) (h : d.apply_change r t = some d') :
    ((d.set_content c').line_offsets.length = 1 + (d.set_content c').content.count '\n'
      ∧ (d.set_content c').line_offsets.head? = some 0
      ∧ (d.set_content c').version = d.version + 1)
    ∧ (d'.line_offsets.length = 1 + d'.content.count '\n'
      ∧ d'.line_offsets.head? = some 0
      ∧ d'.version = d.version + 1) := by
  obtain ⟨-, hlo, hver, -, -⟩ := apply_change_inv d r t d' h
  refine ⟨⟨?_, rfl, rfl⟩, ?_, ?_, hver⟩
  · exact count_compute_line_offsets c'
  · rw [hlo]; exact count_compute_line_offsets d'.content
  · rw [hlo]; rfl

/-- C6 witness: set_content "x" and apply_change inserting "b" at (0,0)
on the document "a". -/
theorem c6_witness :
    (((Document.new "u" "l" ['a']).set_content ['x']).line_offsets.length
        = 1 + ((Document.new "u" "l" ['a']).set_content ['x']).content.count '\n'
      ∧ ((Document.new "u" "l" ['a']).set_content ['x']).line_offsets.head? = some 0
      ∧ ((Document.new "u" "l" ['a']).set_content ['x']).version
          = (Document.new "u" "l" ['a']).version + 1)
    ∧ ((⟨"u", 1, "l", ['b', 'a'], [0]⟩ : Document).line_offsets.length
        = 1 + (⟨"u", 1, "l", ['b', 'a'], [0]⟩ : Document).content.count '\n'
      ∧ (⟨"u", 1, "l", ['b', 'a'], [0]⟩ : Document).line_offsets.head? = some 0
      ∧ (⟨"u", 1, "l", ['b', 'a'], [0]⟩ : Document).version
          = (Document.new "u" "l" ['a']).version + 1) :=
  c6_mutation_invariants (Document.new "u" "l" ['a']) ['x'] (Range.from_coords 0 0 0 0) ['b']
    ⟨"u", 1, "l", ['b', 'a'], [0]⟩ (by decide)

/-- C7 counterexample: a single childless symbol whose full range
contains (5,0) but whose selection range does not.  The claim's
fall-back ("deepest symbol whose full range contains p") would return
the symbol; the code returns nothing. -/
theorem c7_counterexample :
    (SymbolResolver.find_symbol_at
        ⟨[⟨['f'], SymbolKind.Function, Range.from_coords 0 0 10 0,
           Range.from_coords 0 0 0 1, none, []⟩]⟩ (Position.new 5 0)).isNone = true
    ∧ (Range.from_coords 0 0 10 0).containsB (Position.new 5 0) = true := by
  constructor
  · simp [SymbolResolver.find_symbol_at, findInSymbols, Range.containsB,
      Range.from_coords, Position.new, Position.leB, Position.ltB]
  · decide

/-- C7 (amended): find_symbol_at returns a symbol exactly when a
selection-range hit is reachable by descending only through symbols
whose full range contains the position, and any returned symbol's
selection range contains the position.  In particular a full-range
match alone never produces a result — there is no fall-back. -/
theorem c7_amended_find_symbol_at (pos : Position) (res : SymbolResolver) :
    ((res.find_symbol_at pos).isSome = true ↔ selReachable pos res.symbols = true)
    ∧ (∀ s, res.find_symbol_at pos = some s → s.selection_range.containsB pos = true) := by
  unfold SymbolResolver.find_symbol_at
  induction res.symbols using findInSymbols.induct pos with
  | case1 => simp [findInSymbols, selReachable]
  | case2 s rest h1 =>
    constructor
    · simp [findInSymbols, selReachable, h1]
    · intro s' hs'
      simp only [findInSymbols, if_pos h1] at hs'
      injection hs' with hs'
      rw [← hs']
      exact h1
  | case3 s rest h1 h2 c hc ihc =>
    have hsel : selReachable pos s.children = true := ihc.1.mp (by simp [hc])
    constructor
    · simp [findInSymbols, selReachable, h1, h2, hc, hsel]
    · intro s' hs'
      simp only [findInSymbols, if_neg h1, if_pos h2, hc] at hs'
      injection hs' with hs'
      rw [← hs']
      exact ihc.2 c hc
  | case4 s rest h1 h2 hc ihc ihr =>
    have hsel : selReachable pos s.children = false := by
      cases hb : selReachable pos s.children with
      | false => rfl
      | true => exact absurd (ihc.1.mpr hb) (by simp [hc])
    constructor
    · simp [findInSymbols, selReachable, h1, h2, hc, hsel, ihr.1]
    · intro s' hs'
      simp only [findInSymbols, if_neg h1, if_pos h2, hc] at hs'
      exact ihr.2 s' hs'
  | case5 s rest h1 h2 ihr =>
    constructor
    · simp [findInSymbols, selReachable, h1, h2, ihr.1]
    · intro s' hs'
      simp only [findInSymbols, if_neg h1, if_neg h2] at hs'
      exact ihr.2 s' hs'

/-- C7 witness: a symbol whose selection range contains the position is
found, and its selection range indeed contains the position. -/
theorem c7_amended_witness :
    (SymbolResolver.find_symbol_at
      ⟨[⟨['f'], SymbolKind.Function, Range.from_coords 0 0 10 0,
         Range.from_coords 0 0 0 5, none, []⟩]⟩ (Position.new 0 2)).isSome = true := by
  have h := (c7_amended_find_symbol_at (Position.new 0 2)
    ⟨[⟨['f'], SymbolKind.Function, Range.from_coords 0 0 10 0,
       Range.from_coords 0 0 0 5, none, []⟩]⟩).1
  apply h.mpr
  simp [selReachable, Range.containsB, Range.from_coords, Position.new,
    Position.leB, Position.ltB]

theorem isPref_iff_take : ∀ (p n : List Char), isPref p n = true ↔ p = n.take p.length := by
  intro p
  induction p with
  | nil => intro n; simp [isPref]
  | cons a as ih =>
    intro n
    cases n with
    | nil => simp [isPref]
    | cons b bs =>
      simp only [isPref, Bool.and_eq_true, decide_eq_true_eq, List.length_cons,
        List.take_succ_cons, List.cons.injEq]
      exact and_congr Iff.rfl (ih bs)

theorem isPref_length_le (p n : List Char) (h : isPref p n = true) : p.length ≤ n.length := by
  rw [isPref_iff_take] at h
  calc p.length = (n.take p.length).length := by rw [← h]
    _ ≤ n.length := by
        rw [List.length_take]
        omega

theorem isPref_take (n : List Char) (i : Nat) : isPref (n.take i) n = true := by
  rw [isPref_iff_take, List.length_take]
  cases Nat.le_total i n.length with
  | inl h => rw [Nat.min_eq_left h]
  | inr h =>
    rw [Nat.min_eq_right h, List.take_length]
    exact List.take_of_length_le h

theorem mem_prefixes2_iff (p n : List Char) :
    p ∈ prefixes2 n ↔ (2 ≤ p.length ∧ p.length ≤ n.length ∧ p = n.take p.length) := by
  unfold prefixes2
  rw [List.mem_map]
  constructor
  · rintro ⟨i, hi, rfl⟩
    rw [List.mem_range'_1] at hi
    have hlen : (n.take i).length = i := by
      rw [List.length_take]
      omega
    rw [hlen]
    exact ⟨by omega, by omega, rfl⟩
  · rintro ⟨h2, hle, heq⟩
    refine ⟨p.length, ?_, heq.symm⟩
    rw [List.mem_range'_1]
    omega

theorem mem_prefixes2_iff_isPref (p n : List Char) :
    p ∈ prefixes2 n ↔ (2 ≤ p.length ∧ isPref p n = true) := by
  rw [mem_prefixes2_iff]
  constructor
  · rintro ⟨h2, hle, heq⟩
    exact ⟨h2, by rw [isPref_iff_take]; exact heq⟩
  · rintro ⟨h2, hpref⟩
    exact ⟨h2, isPref_length_le p n hpref, (isPref_iff_take p n).mp hpref⟩

theorem memB_of_some (m : InvIdx) (p : List Char) (u : String) (s : List String)
    (h : m p = some s) : m.memB p u = decide (u ∈ s) := by
  unfold InvIdx.memB
  rw [h]

theorem memB_of_none (m : InvIdx) (p : List Char) (u : String)
    (h : m p = none) : m.memB p u = false := by
  unfold InvIdx.memB
  rw [h]

theorem insertUri_apply_self (m : InvIdx) (k : List Char) (u : String) :
    (m.insertUri k u) k
      = some (if u ∈ (m k).getD [] then (m k).getD [] else (m k).getD [] ++ [u]) := by
  unfold InvIdx.insertUri
  rw [Function.update_same]

theorem insertUri_apply_ne (m : InvIdx) (k : List Char) (u : String) (p : List Char)
    (hpk : p ≠ k) : (m.insertUri k u) p = m p := by
  unfold InvIdx.insertUri
  rw [Function.update_noteq hpk]

theorem removeUri_apply_ne (m : InvIdx) (k : List Char) (u : String) (p : List Char)
    (hpk : p ≠ k) : (m.removeUri k u) p = m p := by
  unfold InvIdx.removeUri
  cases m k with
  | none => rfl
  | some s =>
    simp only []
    by_cases hempty : s.erase u = []
    · rw [if_pos hempty, Function.update_noteq hpk]
    · rw [if_neg hempty, Function.update_noteq hpk]

theorem insertUri_memB (m : InvIdx) (k : List Char) (u : String) (p : List Char) (v : String) :
    (m.insertUri k u).memB p v = true ↔ (m.memB p v = true ∨ (p = k ∧ v = u)) := by
  by_cases hpk : p = k
  · subst hpk
    rw [memB_of_some _ _ _ _ (insertUri_apply_self m p u)]
    cases hmk : m p with
    | none =>
      rw [memB_of_none _ _ _ hmk]
      simp
    | some s =>
      rw [memB_of_some _ _ _ _ hmk]
      simp only [hmk, Option.getD_some]
      by_cases hu : u ∈ s
      · simp only [if_pos hu, decide_eq_true_eq]
        constructor
        · exact fun hv => Or.inl hv
        · intro h
          rcases h with hv | h2
          · exact hv
          · rw [h2.2]
            exact hu
      · simp only [if_neg hu, decide_eq_true_eq, List.mem_append, List.mem_singleton]
        constructor
        · intro h
          rcases h with hv | hv
          · exact Or.inl hv
          · exact Or.inr (And.intro (by trivial) hv)
        · intro h
          rcases h with hv | h2
          · exact Or.inl hv
          · exact Or.inr h2.2
  · have heq : (m.insertUri k u).memB p v = m.memB p v := by
      unfold InvIdx.memB
      rw [insertUri_apply_ne m k u p hpk]
    rw [heq]
    simp [hpk]

theorem removeUri_memB (m : InvIdx) (hn : SetsNodup m) (k : List Char) (u : String)
    (p : List Char) (v : String) :
    (m.removeUri k u).memB p v = true ↔ (m.memB p v = true ∧ ¬ (p = k ∧ v = u)) := by
  by_cases hpk : p = k
  · subst hpk
    cases hmk : m p with
    | none =>
      have happ : (m.removeUri p u) p = none := by
        unfold InvIdx.removeUri
        rw [hmk]
        show m p = none
        exact hmk
      rw [memB_of_none _ _ _ happ, memB_of_none _ _ _ hmk]
      simp
    | some s =>
      have hnd : s.Nodup := hn p s hmk
      rw [memB_of_some _ _ _ _ hmk]
      by_cases hempty : s.erase u = []
      · have happ : (m.removeUri p u) p = none := by
          unfold InvIdx.removeUri
          rw [hmk]
          simp only []
          rw [if_pos hempty, Function.update_same]
        rw [memB_of_none _ _ _ happ]
        simp only [Bool.false_eq_true, false_iff, decide_eq_true_eq, not_and]
        intro hv hne
        have hv' : v ∈ s.erase u := by
          rw [List.Nodup.mem_erase_iff hnd]
          refine ⟨?_, hv⟩
          intro he
          exact hne (by trivial) he
        rw [hempty] at hv'
        exact absurd hv' (List.not_mem_nil v)
      · have happ : (m.removeUri p u) p = some (s.erase u) := by
          unfold InvIdx.removeUri
          rw [hmk]
          simp only []
          rw [if_neg hempty, Function.update_same]
        rw [memB_of_some _ _ _ _ happ]
        simp only [decide_eq_true_eq]
        rw [List.Nodup.mem_erase_iff hnd]
        constructor
        · rintro ⟨hne, hv⟩
          exact ⟨hv, fun h => hne h.2⟩
        · rintro ⟨hv, hne⟩
          exact ⟨fun he => hne ⟨by trivial, he⟩, hv⟩
  · have heq : (m.removeUri k u).memB p v = m.memB p v := by
      unfold InvIdx.memB
      rw [removeUri_apply_ne m k u p hpk]
    rw [heq]
    simp [hpk]

theorem insertUri_nodup (m : InvIdx) (hn : SetsNodup m) (k : List Char) (u : String) :
    SetsNodup (m.insertUri k u) := by
  intro k' s' hs'
  by_cases hkk : k' = k
  · subst hkk
    rw [insertUri_apply_self m k' u] at hs'
    injection hs' with hs'
    subst hs'
    cases hmk : m k' with
    | none => simp
    | some s =>
      have hnd := hn k' s hmk
      by_cases hu : u ∈ s
      · simpa [hu] using hnd
      · simp only [Option.getD_some, if_neg hu]
        rw [List.nodup_append]
        exact ⟨hnd, List.nodup_singleton u, by simpa using hu⟩
  · rw [insertUri_apply_ne m k u k' hkk] at hs'
    exact hn k' s' hs'

theorem removeUri_nodup (m : InvIdx) (hn : SetsNodup m) (k : List Char) (u : String) :
    SetsNodup (m.removeUri k u) := by
  intro k' s' hs'
  by_cases hkk : k' = k
  · subst hkk
    cases hmk : m k' with
    | none =>
      have happ : (m.removeUri k' u) k' = none := by
        unfold InvIdx.removeUri
        rw [hmk]
        show m k' = none
        exact hmk
      rw [happ] at hs'
      exact Option.noConfusion hs'
    | some s =>
      by_cases hempty : s.erase u = []
      · have happ : (m.removeUri k' u) k' = none := by
          unfold InvIdx.removeUri
          rw [hmk]
          simp only []
          rw [if_pos hempty, Function.update_same]
        rw [happ] at hs'
        exact Option.noConfusion hs'
      · have happ : (m.removeUri k' u) k' = some (s.erase u) := by
          unfold InvIdx.removeUri
          rw [hmk]
          simp only []
          rw [if_neg hempty, Function.update_same]
        rw [happ] at hs'
        injection hs' with hs'
        subst hs'
        exact (hn _ s hmk).erase u
  · rw [removeUri_apply_ne m k u k' hkk] at hs'
    exact hn k' s' hs'

theorem isPref_refl (p : List Char) : isPref p p = true := by
  rw [isPref_iff_take, List.take_length]

theorem foldl_insertUri_nodup (u : String) :
    ∀ (ks : List (List Char)) (m : InvIdx), SetsNodup m →
      SetsNodup (ks.foldl (fun m k => m.insertUri k u) m) := by
  intro ks
  induction ks with
  | nil => intro m hm; exact hm
  | cons k ks ih =>
    intro m hm
    exact ih (m.insertUri k u) (insertUri_nodup m hm k u)

theorem foldl_removeUri_nodup (u : String) :
    ∀ (ks : List (List Char)) (m : InvIdx), SetsNodup m →
      SetsNodup (ks.foldl (fun m k => m.removeUri k u) m) := by
  intro ks
  induction ks with
  | nil => intro m hm; exact hm
  | cons k ks ih =>
    intro m hm
    exact ih (m.removeUri k u) (removeUri_nodup m hm k u)

theorem foldl_insertUri_memB (u : String) (p : List Char) (v : String) :
    ∀ (ks : List (List Char)) (m : InvIdx),
      ((ks.foldl (fun m k => m.insertUri k u) m).memB p v = true
        ↔ (m.memB p v = true ∨ (v = u ∧ p ∈ ks))) := by
  intro ks
  induction ks with
  | nil => intro m; simp
  | cons k ks ih =>
    intro m
    simp only [List.foldl_cons]
    rw [ih (m.insertUri k u), insertUri_memB, List.mem_cons]
    constructor
    · rintro ((hv | ⟨hpk, hvu⟩) | ⟨hvu, hks⟩)
      · exact Or.inl hv
      · exact Or.inr ⟨hvu, Or.inl hpk⟩
      · exact Or.inr ⟨hvu, Or.inr hks⟩
    · rintro (hv | ⟨hvu, hpk | hks⟩)
      · exact Or.inl (Or.inl hv)
      · exact Or.inl (Or.inr ⟨hpk, hvu⟩)
      · exact Or.inr ⟨hvu, hks⟩

theorem foldl_removeUri_memB (u : String) (p : List Char) (v : String) :
    ∀ (ks : List (List Char)) (m : InvIdx), SetsNodup m →
      ((ks.foldl (fun m k => m.removeUri k u) m).memB p v = true
        ↔ (m.memB p v = true ∧ ¬ (v = u ∧ p ∈ ks))) := by
  intro ks
  induction ks with
  | nil => intro m hm; simp
  | cons k ks ih =>
    intro m hm
    simp only [List.foldl_cons]
    rw [ih (m.removeUri k u) (removeUri_nodup m hm k u),
      removeUri_memB m hm k u p v, List.mem_cons]
    constructor
    · rintro ⟨⟨hv, h1⟩, h2⟩
      refine ⟨hv, ?_⟩
      rintro ⟨hvu, hpk | hks⟩
      · exact h1 ⟨hpk, hvu⟩
      · exact h2 ⟨hvu, hks⟩
    · rintro ⟨hv, h⟩
      refine ⟨⟨hv, ?_⟩, ?_⟩
      · rintro ⟨hpk, hvu⟩
        exact h ⟨hvu, Or.inl hpk⟩
      · rintro ⟨hvu, hks⟩
        exact h ⟨hvu, Or.inr hks⟩

theorem add_nodup (m : InvIdx) (hn : SetsNodup m) (n : List Char) (u : String) :
    SetsNodup (m.add n u) :=
  foldl_insertUri_nodup u _ _ (insertUri_nodup m hn _ u)

theorem remove_nodup (m : InvIdx) (hn : SetsNodup m) (n : List Char) (u : String) :
    SetsNodup (m.remove n u) :=
  foldl_removeUri_nodup u _ _ hn

theorem add_memB_ge2 (m : InvIdx) (n : List Char) (u : String) (p : List Char) (v : String)
    (hp : 2 ≤ p.length) :
    (m.add n u).memB p v = true
      ↔ (m.memB p v = true ∨ (v = u ∧ isPref p (lowerName n) = true)) := by
  unfold InvIdx.add
  rw [foldl_insertUri_memB, insertUri_memB, mem_prefixes2_iff_isPref]
  constructor
  · rintro ((hv | ⟨hpk, hvu⟩) | ⟨hvu, -, hpref⟩)
    · exact Or.inl hv
    · subst hpk
      exact Or.inr ⟨hvu, isPref_refl _⟩
    · exact Or.inr ⟨hvu, hpref⟩
  · rintro (hv | ⟨hvu, hpref⟩)
    · exact Or.inl (Or.inl hv)
    · exact Or.inr ⟨hvu, hp, hpref⟩

theorem remove_memB_ge2 (m : InvIdx) (hn : SetsNodup m) (n : List Char) (u : String)
    (p : List Char) (v : String) (hp : 2 ≤ p.length) :
    (m.remove n u).memB p v = true
      ↔ (m.memB p v = true ∧ ¬ (v = u ∧ isPref p (lowerName n) = true)) := by
  unfold InvIdx.remove
  rw [foldl_removeUri_memB u p v _ m hn, mem_prefixes2_iff_isPref]
  constructor
  · rintro ⟨hv, h⟩
    refine ⟨hv, ?_⟩
    rintro ⟨hvu, hpref⟩
    exact h ⟨hvu, hp, hpref⟩
  · rintro ⟨hv, h⟩
    refine ⟨hv, ?_⟩
    rintro ⟨hvu, -, hpref⟩
    exact h ⟨hvu, hpref⟩

theorem foldl_add_syms_nodup (u : String) :
    ∀ (syms : List IndexedSymbol) (m : InvIdx), SetsNodup m →
      SetsNodup (syms.foldl (fun m sym => m.add sym.name u) m) := by
  intro syms
  induction syms with
  | nil => intro m hm; exact hm
  | cons sym syms ih =>
    intro m hm
    exact ih _ (add_nodup m hm sym.name u)

theorem foldl_remove_syms_nodup (u : String) :
    ∀ (syms : List IndexedSymbol) (m : InvIdx), SetsNodup m →
      SetsNodup (syms.foldl (fun m sym => m.remove sym.name u) m) := by
  intro syms
  induction syms with
  | nil => intro m hm; exact hm
  | cons sym syms ih =>
    intro m hm
    exact ih _ (remove_nodup m hm sym.name u)

theorem foldl_add_syms_memB (u : String) (p : List Char) (v : String) (hp : 2 ≤ p.length) :
    ∀ (syms : List IndexedSymbol) (m : InvIdx),
      ((syms.foldl (fun m sym => m.add sym.name u) m).memB p v = true
        ↔ (m.memB p v = true
            ∨ (v = u ∧ ∃ sym ∈ syms, isPref p (lowerName sym.name) = true))) := by
  intro syms
  induction syms with
  | nil => intro m; simp
  | cons sym syms ih =>
    intro m
    simp only [List.foldl_cons]
    rw [ih (m.add sym.name u), add_memB_ge2 m sym.name u p v hp]
    constructor
    · rintro ((hv | ⟨hvu, hpref⟩) | ⟨hvu, w, hw, hpref⟩)
      · exact Or.inl hv
      · exact Or.inr ⟨hvu, sym, List.mem_cons_self sym syms, hpref⟩
      · exact Or.inr ⟨hvu, w, List.mem_cons_of_mem sym hw, hpref⟩
    · rintro (hv | ⟨hvu, w, hw, hpref⟩)
      · exact Or.inl (Or.inl hv)
      · rcases List.mem_cons.mp hw with rfl | hw'
        · exact Or.inl (Or.inr ⟨hvu, hpref⟩)
        · exact Or.inr ⟨hvu, w, hw', hpref⟩

theorem foldl_remove_syms_memB (u : String) (p : List Char) (v : String) (hp : 2 ≤ p.length) :
    ∀ (syms : List IndexedSymbol) (m : InvIdx), SetsNodup m →
      ((syms.foldl (fun m sym => m.remove sym.name u) m).memB p v = true
        ↔ (m.memB p v = true
            ∧ ¬ (v = u ∧ ∃ sym ∈ syms, isPref p (lowerName sym.name) = true))) := by
  intro syms
  induction syms with
  | nil => intro m hm; simp
  | cons sym syms ih =>
    intro m hm
    simp only [List.foldl_cons]
    rw [ih (m.remove sym.name u) (remove_nodup m hm sym.name u),
      remove_memB_ge2 m hm sym.name u p v hp]
    constructor
    · rintro ⟨⟨hv, h1⟩, h2⟩
      refine ⟨hv, ?_⟩
      rintro ⟨hvu, w, hw, hpref⟩
      rcases List.mem_cons.mp hw with rfl | hw'
      · exact h1 ⟨hvu, hpref⟩
      · exact h2 ⟨hvu, w, hw', hpref⟩
    · rintro ⟨hv, h⟩
      refine ⟨⟨hv, ?_⟩, ?_⟩
      · rintro ⟨hvu, hpref⟩
        exact h ⟨hvu, sym, List.mem_cons_self sym syms, hpref⟩
      · rintro ⟨hvu, w, hw, hpref⟩
        exact h ⟨hvu, w, List.mem_cons_of_mem sym hw, hpref⟩

theorem indexInv_empty : IndexInv SymbolIndex.empty := by
  constructor
  · intro k s h
    exact Option.noConfusion h
  · intro p u hp
    constructor
    · intro h
      exact absurd h (by simp [SymbolIndex.empty, InvIdx.memB, InvIdx.empty])
    · rintro ⟨sym, hmem, -⟩
      exact absurd hmem (List.not_mem_nil sym)

theorem indexInv_index_document (si : SymbolIndex) (h : IndexInv si) (uri : String)
    (syms : List IndexedSymbol) : IndexInv (si.index_document uri syms) := by
  obtain ⟨hnd, hiff⟩ := h
  have hnd1 : SetsNodup ((si.documents uri).foldl
      (fun m sym => m.remove sym.name uri) si.inverted) :=
    foldl_remove_syms_nodup uri _ _ hnd
  constructor
  · exact foldl_add_syms_nodup uri _ _ hnd1
  · intro p u hp
    show (syms.foldl (fun m sym => m.add sym.name uri)
        ((si.documents uri).foldl (fun m sym => m.remove sym.name uri) si.inverted)).memB p u
        = true ↔ _
    rw [foldl_add_syms_memB uri p u hp,
      foldl_remove_syms_memB uri p u hp _ _ hnd, hiff p u hp]
    simp only [SymbolIndex.index_document]
    by_cases hu : u = uri
    · subst hu
      rw [Function.update_same]
      constructor
      · rintro (⟨hold, hnot⟩ | ⟨-, hnew⟩)
        · exact absurd ⟨rfl, hold⟩ hnot
        · exact hnew
      · intro hnew
        exact Or.inr ⟨rfl, hnew⟩
    · rw [Function.update_noteq hu]
      constructor
      · rintro (⟨hold, -⟩ | ⟨huu, -⟩)
        · exact hold
        · exact absurd huu hu
      · intro hold
        exact Or.inl ⟨hold, fun hc => hu hc.1⟩

theorem indexInv_remove_document (si : SymbolIndex) (h : IndexInv si) (uri : String) :
    IndexInv (si.remove_document uri) := by
  obtain ⟨hnd, hiff⟩ := h
  constructor
  · exact foldl_remove_syms_nodup uri _ _ hnd
  · intro p u hp
    show ((si.documents uri).foldl (fun m sym => m.remove sym.name uri) si.inverted).memB p u
        = true ↔ _
    rw [foldl_remove_syms_memB uri p u hp _ _ hnd, hiff p u hp]
    simp only [SymbolIndex.remove_document]
    by_cases hu : u = uri
    · subst hu
      rw [Function.update_same]
      constructor
      · rintro ⟨hold, hnot⟩
        exact absurd ⟨rfl, hold⟩ hnot
      · rintro ⟨sym, hmem, -⟩
        exact absurd hmem (List.not_mem_nil sym)
    · rw [Function.update_noteq hu]
      constructor
      · rintro ⟨hold, -⟩
        exact hold
      · intro hold
        exact ⟨hold, fun hc => hu hc.1⟩

theorem indexInv_runIndexOps (ops : List IndexOp) : IndexInv (runIndexOps ops) := by
  suffices h : ∀ (ops : List IndexOp) (si : SymbolIndex), IndexInv si →
      IndexInv (ops.foldl applyIndexOp si) from h ops SymbolIndex.empty indexInv_empty
  intro ops
  induction ops with
  | nil => intro si h; exact h
  | cons op ops ih =>
    intro si h
    apply ih
    cases op with
    | index uri syms => exact indexInv_index_document si h uri syms
    | removeDoc uri => exact indexInv_remove_document si h uri

/-- C2 counterexample: indexing a single-letter symbol "x" inserts its
full lowercased name as a key of length 1, and remove_document (whose
loop runs only over prefixes of length 2..=len) never removes it: after
index_document("file:a", [x]) and remove_document("file:a"), the key
"x" still maps to "file:a" even though the per-URI list is empty. -/
theorem c2_counterexample :
    (runIndexOps [IndexOp.index "file:a" [⟨['x'], SymbolKind.Variable,
        Range.from_coords 0 0 0 1, Range.from_coords 0 0 0 1, "file:a"⟩],
      IndexOp.removeDoc "file:a"]).inverted.memB ['x'] "file:a" = true
    ∧ (['x'] : List Char).length = 1
    ∧ (runIndexOps [IndexOp.index "file:a" [⟨['x'], SymbolKind.Variable,
        Range.from_coords 0 0 0 1, Range.from_coords 0 0 0 1, "file:a"⟩],
      IndexOp.removeDoc "file:a"]).documents "file:a" = [] := by
  refine ⟨by decide, rfl, by decide⟩

/-- C2 (amended): in every state reachable by index_document /
remove_document operations, a key of length at least 2 maps to a set
containing URI u exactly when u currently has an indexed symbol whose
lowercased name begins with that key.  Keys of length < 2 (full
lowercased names of short symbols) are also inserted by add and are
never removed, so they may persist and keep mapping to removed URIs. -/
theorem c2_amended_inverted_iff (ops : List IndexOp) (p : List Char) (u : String)
    (hp : 2 ≤ p.length) :
    ((runIndexOps ops).inverted.memB p u = true
      ↔ ∃ sym ∈ (runIndexOps ops).documents u, isPref p (lowerName sym.name) = true) :=
  (indexInv_runIndexOps ops).2 p u hp

/-- C2 witness: after indexing "ab" under "file:a", the key "ab" maps
to "file:a" iff the stored list has a matching symbol — and it does. -/
theorem c2_amended_witness :
    (runIndexOps [IndexOp.index "file:a" [⟨['a', 'b'], SymbolKind.Function,
        Range.from_coords 0 0 0 2, Range.from_coords 0 0 0 2, "file:a"⟩]]).inverted.memB
        ['a', 'b'] "file:a" = true
      ↔ ∃ sym ∈ (runIndexOps [IndexOp.index "file:a" [⟨['a', 'b'], SymbolKind.Function,
        Range.from_coords 0 0 0 2, Range.from_coords 0 0 0 2, "file:a"⟩]]).documents "file:a",
        isPref ['a', 'b'] (lowerName sym.name) = true :=
  c2_amended_inverted_iff _ ['a', 'b'] "file:a" (by decide)

theorem indexInv_runDaemonOps (scan : List Char → List TodoItem) (ops : List DaemonOp) :
    IndexInv (runDaemonOps scan ops).symbol_index := by
  suffices h : ∀ (ops : List DaemonOp) (st : DaemonState), IndexInv st.symbol_index →
      IndexInv ((ops.foldl (applyDaemonOp scan) st).symbol_index) from
    h ops DaemonState.initial indexInv_empty
  intro ops
  induction ops with
  | nil => intro st h; exact h
  | cons op ops ih =>
    intro st h
    apply ih
    cases op with
    | openDoc uri lang content => exact h
    | changeDoc uri content => exact h
    | closeDoc uri => exact indexInv_remove_document _ h uri
    | indexSymbols uri syms => exact indexInv_index_document _ h uri syms

/-- C5 counterexample: with a single-letter symbol "x" indexed for the
URI, open followed by close clears the document store, the per-URI
symbol list and the TODO entry, but the inverted-index key "x" (the
full lowercased name, length 1) still maps to the URI. -/
theorem c5_counterexample :
    (((runDaemonOps (fun _ => []) [DaemonOp.indexSymbols "file:a"
          [⟨['x'], SymbolKind.Variable, Range.from_coords 0 0 0 1,
            Range.from_coords 0 0 0 1, "file:a"⟩]]).open_document (fun _ => [])
        "file:a" "python" ['x']).close_document
        "file:a").symbol_index.inverted.memB ['x'] "file:a" = true := by
  decide

/-- C5 (amended): from any reachable daemon state, open_document
followed by close_document leaves no document, an empty per-URI symbol
list, no TODO entry, and no inverted-index key of length at least 2
containing the URI; keys shorter than 2 (full lowercased names of
short symbols) may keep mapping to the URI. -/
theorem c5_amended_close_clears (scan : List Char → List TodoItem) (ops : List DaemonOp)
    (uri language_id : String) (content : List Char) :
    (((runDaemonOps scan ops).open_document scan uri language_id content).close_document
        uri).documents uri = none
    ∧ (((runDaemonOps scan ops).open_document scan uri language_id content).close_document
        uri).symbol_index.documents uri = []
    ∧ (((runDaemonOps scan ops).open_document scan uri language_id content).close_document
        uri).todo_index uri = none
    ∧ ∀ p : List Char, 2 ≤ p.length →
      (((runDaemonOps scan ops).open_document scan uri language_id content).close_document
          uri).symbol_index.inverted.memB p uri = false := by
  refine ⟨?_, ?_, ?_, ?_⟩
  · simp only [DaemonState.close_document, Function.update_same]
  · simp only [DaemonState.close_document, SymbolIndex.remove_document,
      Function.update_same]
  · simp only [DaemonState.close_document, Function.update_same]
  · intro p hp
    have hinv : IndexInv ((runDaemonOps scan ops).open_document scan uri
        language_id content).symbol_index := indexInv_runDaemonOps scan ops
    obtain ⟨hnd, hiff⟩ := hinv
    show ((((runDaemonOps scan ops).open_document scan uri language_id
        content).symbol_index.documents uri).foldl (fun m sym => m.remove sym.name uri)
        ((runDaemonOps scan ops).open_document scan uri language_id
          content).symbol_index.inverted).memB p uri = false
    cases hb : ((((runDaemonOps scan ops).open_document scan uri language_id
        content).symbol_index.documents uri).foldl (fun m sym => m.remove sym.name uri)
        ((runDaemonOps scan ops).open_document scan uri language_id
          content).symbol_index.inverted).memB p uri with
    | false => rfl
    | true =>
      obtain ⟨hv, hnot⟩ := (foldl_remove_syms_memB uri p uri hp _ _ hnd).mp hb
      exact absurd ⟨rfl, (hiff p uri hp).mp hv⟩ hnot

/-- C5 witness: on the empty history the amended claim evaluates at key
"ab": after open and close nothing of the URI remains. -/
theorem c5_amended_witness :
    (((runDaemonOps (fun _ => []) []).open_document (fun _ => []) "file:a" "python"
        ['a', 'b']).close_document "file:a").symbol_index.inverted.memB
      ['a', 'b'] "file:a" = false :=
  (c5_amended_close_clears (fun _ => []) [] "file:a" "python" ['a', 'b']).2.2.2
    ['a', 'b'] (by decide)

/-- C9: when a usage outside the declaration's range exists, safe
delete returns SymbolInUse with exactly the blocking locations and no
edits, and the daemon reports failure with the formatted 1-based
locations; an Ok result (the only carrier of edits) occurs only when no
blocking usage exists. -/
theorem c9_safe_delete_blocked (declRange : Range) (usages : List Location) :
    ((usages.filter (fun loc => ! declRange.containsB loc.range.start)) ≠ [] →
      (safeDeletePlan declRange usages
         = Except.error (RefactorError.symbolInUse
             (usages.filter (fun loc => ! declRange.containsB loc.range.start)))
       ∧ handleSafeDelete (safeDeletePlan declRange usages)
         = SafeDeleteReply.failure ("Symbol is still in use at: "
             ++ String.intercalate ", " ((usages.filter
                 (fun loc => ! declRange.containsB loc.range.start)).map formatLoc))))
    ∧ (∀ result, safeDeletePlan declRange usages = Except.ok result →
        (usages.filter (fun loc => ! declRange.containsB loc.range.start)) = []) := by
  constructor
  · intro hblock
    have hne : ((usages.filter (fun loc => ! declRange.containsB loc.range.start)).isEmpty)
        = false := by
      rw [List.isEmpty_eq_false_iff_exists_mem]
      exact List.exists_mem_of_ne_nil _ hblock
    constructor
    · unfold safeDeletePlan
      simp only []
      rw [hne]
      rfl
    · unfold safeDeletePlan handleSafeDelete
      simp only []
      rw [hne]
      rfl
  · intro result hok
    by_cases hb : (usages.filter (fun loc => ! declRange.containsB loc.range.start)) = []
    · exact hb
    · exfalso
      have hne : ((usages.filter (fun loc => ! declRange.containsB loc.range.start)).isEmpty)
          = false := by
        rw [List.isEmpty_eq_false_iff_exists_mem]
        exact List.exists_mem_of_ne_nil _ hb
      unfold safeDeletePlan at hok
      simp only [] at hok
      rw [hne] at hok
      exact Except.noConfusion hok

/-- C9 witness: one usage at (5,0) of "b.ts", outside the declaration
range (0,0)-(1,0) of "a.ts"; the reported location is "b.ts:6:1". -/
theorem c9_witness :
    safeDeletePlan (Range.from_coords 0 0 1 0) [⟨"b.ts", Range.from_coords 5 0 5 3⟩]
        = Except.error (RefactorError.symbolInUse [⟨"b.ts", Range.from_coords 5 0 5 3⟩])
    ∧ handleSafeDelete (safeDeletePlan (Range.from_coords 0 0 1 0)
        [⟨"b.ts", Range.from_coords 5 0 5 3⟩])
        = SafeDeleteReply.failure "Symbol is still in use at: b.ts:6:1" := by
  have h := (c9_safe_delete_blocked (Range.from_coords 0 0 1 0)
    [⟨"b.ts", Range.from_coords 5 0 5 3⟩]).1 (by decide)
  exact ⟨h.1.trans (by rfl), h.2.trans (by rfl)⟩

theorem hsInsert_nodup (l : List String) (u : String) (h : l.Nodup) :
    (hsInsert l u).Nodup := by
  unfold hsInsert
  by_cases hu : u ∈ l
  · rw [if_pos hu]; exact h
  · rw [if_neg hu, List.nodup_append]
    exact ⟨h, List.nodup_singleton u, by simpa using hu⟩

theorem mem_hsInsert (l : List String) (u v : String) :
    v ∈ hsInsert l u ↔ v ∈ l ∨ v = u := by
  unfold hsInsert
  by_cases hu : u ∈ l
  · rw [if_pos hu]
    constructor
    · exact Or.inl
    · rintro (hv | rfl)
      · exact hv
      · exact hu
  · rw [if_neg hu]
    simp

theorem trackerInv_step (t : ChangeTracker) (h : TrackerInv t) (op : TrackerOp) :
    TrackerInv (applyTrackerOp t op) := by
  obtain ⟨hm, hd, hdisj⟩ := h
  cases op with
  | markModified uri =>
    refine ⟨hsInsert_nodup _ _ hm, hd.erase uri, ?_⟩
    rintro u ⟨humod, hudel⟩
    simp only [applyTrackerOp, ChangeTracker.mark_modified, hsRemove] at humod hudel
    rw [mem_hsInsert] at humod
    have hudel' := (List.Nodup.mem_erase_iff hd).mp hudel
    rcases humod with hu | rfl
    · exact hdisj u ⟨hu, hudel'.2⟩
    · exact hudel'.1 rfl
  | markDeleted uri =>
    refine ⟨hm.erase uri, hsInsert_nodup _ _ hd, ?_⟩
    rintro u ⟨humod, hudel⟩
    simp only [applyTrackerOp, ChangeTracker.mark_deleted, hsRemove] at humod hudel
    rw [mem_hsInsert] at hudel
    have humod' := (List.Nodup.mem_erase_iff hm).mp humod
    rcases hudel with hu | rfl
    · exact hdisj u ⟨humod'.2, hu⟩
    · exact humod'.1 rfl
  | clear =>
    refine ⟨List.nodup_nil, List.nodup_nil, ?_⟩
    rintro u ⟨humod, -⟩
    exact absurd humod (List.not_mem_nil u)

theorem trackerInv_run (ops : List TrackerOp) : TrackerInv (runTrackerOps ops) := by
  suffices h : ∀ (ops : List TrackerOp) (t : ChangeTracker), TrackerInv t →
      TrackerInv (ops.foldl applyTrackerOp t) from
    h ops ChangeTracker.new ⟨List.nodup_nil, List.nodup_nil,
      fun u hu => absurd hu.1 (List.not_mem_nil u)⟩
  intro ops
  induction ops with
  | nil => intro t h; exact h
  | cons op ops ih =>
    intro t h
    exact ih _ (trackerInv_step t h op)

/-- C10: in every state reachable by mark_modified / mark_deleted /
clear from a fresh tracker, no URI is both modified and deleted: each
mark operation removes the URI from the opposite set first. -/
theorem c10_tracker_disjoint (ops : List TrackerOp) (uri : String) :
    (decide (uri ∈ (runTrackerOps ops).modified)
      && decide (uri ∈ (runTrackerOps ops).deleted)) = false := by
  have h := (trackerInv_run ops).2.2 uri
  by_cases h1 : uri ∈ (runTrackerOps ops).modified
  · by_cases h2 : uri ∈ (runTrackerOps ops).deleted
    · exact absurd ⟨h1, h2⟩ h
    · simp [h2]
  · simp [h1]
